import Mathlib

/-!
# Verification of `src/web/fileutil.js`

A shallow embedding of the file utilities of the repository and the
properties claimed about them:

* `lineCount` - line counting over the bytes of a blob;
* `genNextUniqueFileName` - the successor file name (`foo.txt => foo-1.txt`),
  together with the pieces of JavaScript it relies on (`split`, `join`,
  `parseInt`, `Number` to string conversion, `Number` addition of 1);
* `readDirRecur` - the recursive construction of the directory tree;
* the entry model (`fseIsDirectory`, `fseDirEntries`, `fseFile`, `fseSetMeta`,
  `fseGetMeta`, ...) and `getFileExt`.

JavaScript strings are modelled as lists of characters, byte buffers as lists
of `UInt8`, and the `Number` values that `parseInt` can produce as a sign and
an integer magnitude (plus `NaN` and the infinities), rounded to the nearest
IEEE-754 double exactly as the language prescribes. A metadata object is the
object `{}` of the language: own properties over the prototype
`Object.prototype`.
-/

namespace FileUtil

/-! ## Line counting -/

/-- One iteration of the `for (let b of a)` loop of `lineCount`: the state is
the pair `(nLines, toAdd)`. -/
def lineCountStep (st : Nat × Nat) (b : UInt8) : Nat × Nat :=
  if b = 10 then (st.1 + 1, 0) else (st.1, 1)

/-- The function `lineCount` of the source, on the bytes of the blob `f`
(`f.size` is the number of bytes). -/
def lineCount (f : List UInt8) : Nat :=
  if f.length = 0 then 0
  else
    let st := f.foldl lineCountStep (0, 0)
    st.1 + st.2

/-! ## JavaScript strings -/

/-- A JavaScript string, as the list of its characters. -/
abbrev JSString := List Char

/-- `String.prototype.split` with a one-character separator: the pieces of `s`
between the occurrences of `sep` (always at least one piece). -/
def split (sep : Char) : JSString → List JSString
  | [] => [[]]
  | c :: cs =>
    if c = sep then [] :: split sep cs
    else
      match split sep cs with
      | [] => [[c]]
      | p :: ps => (c :: p) :: ps

/-- `Array.prototype.join` with a one-character separator. -/
def join (sep : Char) : List JSString → JSString
  | [] => []
  | [p] => p
  | p :: q :: ps => p ++ sep :: join sep (q :: ps)

/-! ## JavaScript numbers, as far as `parseInt` reaches them -/

/-- The `Number` values that `parseInt` returns and that adding 1 to them
gives: `NaN`, the two infinities, and the integer-valued doubles, kept as a
sign and a magnitude (`finite true 0` is `-0`). -/
inductive JSNumber where
  | nan
  | infinity (negative : Bool)
  | finite (negative : Bool) (magnitude : Nat)
  deriving DecidableEq, Repr

/-- How many low bits of `v` do not fit in the 53-bit significand of a double
(`fuel` bounds the number of halvings; `v` itself is always enough). -/
def excessBits : Nat → Nat → Nat
  | 0, _ => 0
  | fuel + 1, v => if v < 2 ^ 53 then 0 else excessBits fuel (v / 2) + 1

/-- The bound `2 ^ 1024`: every finite double is below it. -/
def doubleLimit : Nat := (2 ^ 256) ^ 4

/-- The double nearest to the natural number `v` (ties to the even
significand), or `none` when that is beyond the largest finite double. -/
def toDouble (v : Nat) : Option Nat :=
  if v < 2 ^ 53 then some v
  else
    let e := excessBits v v
    let q := v / 2 ^ e
    let r := v % 2 ^ e
    let half := 2 ^ (e - 1)
    let q1 := if half < r ∨ (r = half ∧ q % 2 = 1) then q + 1 else q
    let y := q1 * 2 ^ e
    if y < doubleLimit then some y else none

/-- The Number value of the mathematical integer `(-1)^negative * v`. -/
def ofMathInt (negative : Bool) (v : Nat) : JSNumber :=
  match toDouble v with
  | some m => .finite negative m
  | none => .infinity negative

/-- The white space that `parseInt` skips at the start of its input (the
`WhiteSpace` and `LineTerminator` code points of ECMAScript). -/
def isWhiteSpace (c : Char) : Bool :=
  c.toNat ∈ [0x09, 0x0A, 0x0B, 0x0C, 0x0D, 0x20, 0xA0, 0x1680, 0x2000, 0x2001,
    0x2002, 0x2003, 0x2004, 0x2005, 0x2006, 0x2007, 0x2008, 0x2009, 0x200A,
    0x2028, 0x2029, 0x202F, 0x205F, 0x3000, 0xFEFF]

/-- The value of a character as a digit (`0-9`, `a-z`, `A-Z`). -/
def digitValue (c : Char) : Option Nat :=
  if 48 ≤ c.toNat ∧ c.toNat ≤ 57 then some (c.toNat - 48)
  else if 97 ≤ c.toNat ∧ c.toNat ≤ 122 then some (c.toNat - 97 + 10)
  else if 65 ≤ c.toNat ∧ c.toNat ≤ 90 then some (c.toNat - 65 + 10)
  else none

/-- Whether `c` is a digit of radix `R`. -/
def isRadixDigit (R : Nat) (c : Char) : Bool :=
  match digitValue c with
  | some d => decide (d < R)
  | none => false

/-- The value of a run of radix-`R` digits. -/
def radixValue (R : Nat) (Z : JSString) : Nat :=
  Z.foldl (fun a c => a * R + (digitValue c).getD 0) 0

/-- The sign step of `parseInt`: a leading `-` or `+` is removed. -/
def parseSign : JSString → Bool × JSString
  | '-' :: r => (true, r)
  | '+' :: r => (false, r)
  | s => (false, s)

/-- The radix step of `parseInt` called without a radix: a leading `0x` or
`0X` selects radix 16, anything else radix 10. -/
def parseRadix : JSString → Nat × JSString
  | '0' :: 'x' :: r => (16, r)
  | '0' :: 'X' :: r => (16, r)
  | s => (10, s)

/-- The global function `parseInt(string)` of JavaScript, called with one
argument: leading white space is skipped, a sign and a `0x` prefix are read,
the longest run of digits of the radix is taken, and its exact value is
rounded to a double (no digit is dropped beforehand, as in the engines that
run this code). -/
def parseInt (input : JSString) : JSNumber :=
  let trimmed := input.dropWhile isWhiteSpace
  let signed := parseSign trimmed
  let radixed := parseRadix signed.2
  let Z := radixed.2.takeWhile (isRadixDigit radixed.1)
  if Z = [] then .nan else ofMathInt signed.1 (radixValue radixed.1 Z)

/-- The search of `Number::toString` for the decimal with the fewest
significant digits that still converts back to the double `x`: scales
`10 ^ i, ..., 10` are tried in turn, at each scale the multiples just below and
just above `x` (the closer one when both convert back, the even digit on a
tie, as the language recommends); `x` itself is the last resort. -/
def shortestFrom (x : Nat) : Nat → Nat
  | 0 => x
  | i + 1 =>
    let p := 10 ^ (i + 1)
    let lo := x / p * p
    let hi := lo + p
    let okLo := decide (toDouble lo = some x)
    let okHi := decide (toDouble hi = some x)
    if okLo && okHi then
      if x - lo < hi - x then lo
      else if hi - x < x - lo then hi
      else if (lo / p) % 2 = 0 then lo else hi
    else if okLo then lo
    else if okHi then hi
    else shortestFrom x i

/-- The shortest decimal that denotes the double `x`. -/
def shortestDecimal (x : Nat) : Nat :=
  shortestFrom x ((Nat.toDigits 10 x).length - 1)

/-- The digits of `c` without its trailing zeros. -/
def significantDigits (c : Nat) : JSString :=
  ((Nat.toDigits 10 c).reverse.dropWhile (fun d => d = '0')).reverse

/-- The exponential form `d.ddde+n` of `Number::toString`, for a decimal `c`
of more than 21 digits. -/
def exponentForm (c : Nat) : JSString :=
  let e := Nat.toDigits 10 ((Nat.toDigits 10 c).length - 1)
  match significantDigits c with
  | [] => []
  | [d] => d :: 'e' :: '+' :: e
  | d :: ds => d :: '.' :: ds ++ 'e' :: '+' :: e

/-- The string of a positive integer-valued double `x`: plain digits below
`10 ^ 21`, exponential form from there on. -/
def magnitudeToString (x : Nat) : JSString :=
  let c := shortestDecimal x
  if c < 10 ^ 21 then Nat.toDigits 10 c else exponentForm c

/-- `Number::toString` (radix 10), which is what the template literal
`${n}` applies to a Number. -/
def numberToString : JSNumber → JSString
  | .nan => "NaN".toList
  | .infinity false => "Infinity".toList
  | .infinity true => "-Infinity".toList
  | .finite _ 0 => "0".toList
  | .finite false m => magnitudeToString m
  | .finite true m => '-' :: magnitudeToString m

/-- The Number `n + 1`. -/
def addOne : JSNumber → JSNumber
  | .nan => .nan
  | .infinity b => .infinity b
  | .finite false m => ofMathInt false (m + 1)
  | .finite true m =>
    if m = 0 then .finite false 1
    else if m = 1 then .finite false 0
    else ofMathInt true (m - 1)

/-! ## The successor file name -/

/-- The inner function `toNumberOrNull` of `genNextUniqueFileName`. -/
def toNumberOrNull (s : JSString) : Option JSNumber :=
  let n := parseInt s
  let ns := numberToString n
  if s = ns then some n else none

/-- The function `genNextUniqueFileName` of the source. -/
def genNextUniqueFileName (s : JSString) : JSString :=
  let parts := split '.' s
  let n := parts.length
  let ext : JSString := if n > 1 then '.' :: parts.getD (n - 1) [] else []
  let s := if n > 1 then join '.' (parts.take (n - 1)) else s
  let parts := split '-' s
  let n := parts.length
  if n = 1 then parts.getD 0 [] ++ "-1".toList ++ ext
  else
    match toNumberOrNull (parts.getD (n - 1) []) with
    | none => s ++ "-1".toList ++ ext
    | some currSuffix =>
      let newSuffix := numberToString (addOne currSuffix)
      let parts := parts.set (n - 1) newSuffix
      join '-' parts ++ ext

/-! ## The file extension -/

/-- The function `getFileExt` of the source. `String.prototype.toLowerCase` is
supplied by the language; its Unicode tables are not reproduced here, and the
function is taken as the argument `toLowerCase`. -/
def getFileExt (toLowerCase : JSString → JSString) (fileName : JSString) : JSString :=
  let parts := split '.' fileName
  let n := parts.length
  if n > 1 then '.' :: toLowerCase (parts.getD (n - 1) []) else []

/-! ## The words of the specification about names -/

/-- The part of `s` after its last `sep` (all of `s` when there is none). -/
def afterLast (sep : Char) (s : JSString) : JSString :=
  (s.reverse.takeWhile (fun c => c ≠ sep)).reverse

/-- The part of `s` before its last `sep` (empty when there is none). -/
def beforeLast (sep : Char) (s : JSString) : JSString :=
  (s.reverse.dropWhile (fun c => c ≠ sep)).tail.reverse

/-- The extension of a name in the words of the specification: the substring
after the last `.` with the dot in front, if the name has a dot; otherwise
nothing. -/
def extensionOf (s : JSString) : JSString :=
  if '.' ∈ s then '.' :: afterLast '.' s else []

/-- The stem of a name in the words of the specification: the name with its
last-dot extension removed. -/
def stemOf (s : JSString) : JSString :=
  if '.' ∈ s then beforeLast '.' s else s

/-- A decimal digit character: `'0'` to `'9'`. -/
def IsDecimalDigit (c : Char) : Prop := 48 ≤ c.toNat ∧ c.toNat ≤ 57

/-- The canonical decimal representation of a natural number. -/
def decimal (k : Nat) : JSString := Nat.toDigits 10 k

/-- The second half of `genNextUniqueFileName`, from `parts = s.split("-")` on,
as a function of the stem `s` and the extension `ext` found by the first
half. -/
def stemSuccessor (s ext : JSString) : JSString :=
  let parts := split '-' s
  let n := parts.length
  if n = 1 then parts.getD 0 [] ++ "-1".toList ++ ext
  else
    match toNumberOrNull (parts.getD (n - 1) []) with
    | none => s ++ "-1".toList ++ ext
    | some currSuffix =>
      join '-' (parts.set (n - 1) (numberToString (addOne currSuffix))) ++ ext

/-! ## The directory tree -/

/-- A `File` object, as `getFile()` returns it: its name and its size. -/
structure JSFile where
  name : JSString
  size : Nat
  deriving DecidableEq, Repr

mutual
/-- A `FileSystemDirectoryHandle`: its name and the handles that `values()`
enumerates, in the order of the enumeration. -/
inductive DirHandle where
  | mk (name : JSString) (values : List Handle)
/-- A handle enumerated by a directory: of kind `"file"` (with the `File` that
`getFile()` gives, whose name is the handle's name) or of kind
`"directory"`. -/
inductive Handle where
  | file (f : JSFile)
  | directory (d : DirHandle)
end

/-- The property `name` of a directory handle. -/
def DirHandle.name : DirHandle → JSString
  | .mk name _ => name

/-- The enumeration `values()` of a directory handle. -/
def DirHandle.values : DirHandle → List Handle
  | .mk _ values => values

/-- Whether the property `kind` of an enumerated handle is `"directory"`. -/
def Handle.isDirectory : Handle → Bool
  | .file _ => false
  | .directory _ => true

/-- The property `name` of an enumerated handle. -/
def Handle.name : Handle → JSString
  | .file f => f.name
  | .directory d => d.name

/-- A value stored in the metadata of an entry: the primitive values of
JavaScript (values that are themselves objects are not modelled). -/
inductive JSValue where
  | undefined
  | null
  | bool (b : Bool)
  | number (n : Int)
  | string (s : JSString)
  deriving DecidableEq, Repr

/-- What reading a property gives: a value, or the built-in value that
`Object.prototype` provides under the name read (`toString`, `constructor`,
...; under `__proto__` it is `Object.prototype` itself). -/
inductive PropertyValue where
  | value (v : JSValue)
  | inherited (name : JSString)
  deriving DecidableEq, Repr

/-- The names of the properties of `Object.prototype`. -/
def objectPrototypeKeys : List JSString :=
  ["constructor".toList, "hasOwnProperty".toList, "isPrototypeOf".toList,
    "propertyIsEnumerable".toList, "toLocaleString".toList, "toString".toList,
    "valueOf".toList, "__proto__".toList, "__defineGetter__".toList,
    "__defineSetter__".toList, "__lookupGetter__".toList, "__lookupSetter__".toList]

/-- A metadata object, created as `{}` by `fseSetMeta`: its own properties,
and whether its prototype is still `Object.prototype` (it is `null` after the
assignment `meta["__proto__"] = null`). -/
structure MetaObject where
  own : List (JSString × JSValue)
  hasProto : Bool
  deriving DecidableEq, Repr

/-- The object literal `{}`. -/
def emptyObject : MetaObject := ⟨[], true⟩

/-- The value of the own property `key`, if there is one. -/
def ownLookup (key : JSString) : List (JSString × JSValue) → Option JSValue
  | [] => none
  | (k, v) :: rest => if k = key then some v else ownLookup key rest

/-- The own properties after `key` is created or overwritten with `val`. -/
def ownStore (key : JSString) (val : JSValue) :
    List (JSString × JSValue) → List (JSString × JSValue)
  | [] => [(key, val)]
  | (k, v) :: rest => if k = key then (key, val) :: rest else (k, v) :: ownStore key val rest

/-- The property read `meta[key]`: the own property, else what the prototype
chain provides, else `undefined`. -/
def getProperty (o : MetaObject) (key : JSString) : PropertyValue :=
  match ownLookup key o.own with
  | some v => .value v
  | none =>
    if o.hasProto && decide (key ∈ objectPrototypeKeys) then .inherited key
    else .value .undefined

/-- The assignment `meta[key] = val`: an own property is overwritten; without
one, the name `__proto__` reaches the setter of `Object.prototype`, which
removes the prototype for `null` and ignores every other primitive value; any
other name becomes an own property. -/
def setProperty (o : MetaObject) (key : JSString) (val : JSValue) : MetaObject :=
  match ownLookup key o.own with
  | some _ => { o with own := ownStore key val o.own }
  | none =>
    if o.hasProto && decide (key = "__proto__".toList) then
      match val with
      | .null => { o with hasProto := false }
      | _ => o
    else { o with own := ownStore key val o.own }

/-- An element of the directory tree (`FsEntry` in the source): either
`[file, dirHandle, name, path, size, meta]` or
`[[entries], dirHandle, name, path, size, meta]`; the last slot is `none` for
`null`, else the metadata object. -/
inductive FsEntry where
  | file (file : JSFile) (dirHandle : DirHandle) (name path : JSString) (size : Nat)
      (metaObj : Option MetaObject)
  | dir (entries : List FsEntry) (dirHandle : DirHandle) (name path : JSString) (size : Nat)
      (metaObj : Option MetaObject)

/-- The function `fseIsDirectory` of the source. -/
def fseIsDirectory : FsEntry → Bool
  | .file .. => false
  | .dir .. => true

/-- The function `fseName` of the source. -/
def fseName : FsEntry → JSString
  | .file _ _ name _ _ _ => name
  | .dir _ _ name _ _ _ => name

/-- The function `fsePath` of the source. -/
def fsePath : FsEntry → JSString
  | .file _ _ _ path _ _ => path
  | .dir _ _ _ path _ _ => path

/-- The function `fseDirHandle` of the source. -/
def fseDirHandle : FsEntry → DirHandle
  | .file _ h _ _ _ _ => h
  | .dir _ h _ _ _ _ => h

/-- Modelled from the spec: the helper `throwIf` of `./util`, which is not
among the sources. It raises when its argument is true; `none` stands for the
exception (the `TypeMismatch` of the specification). -/
def throwIf (cond : Bool) : Option Unit :=
  if cond then none else some ()

/-- The function `fseDirEntries` of the source (`none`: `throwIf` has raised;
the slot 0 of a file is never returned). -/
def fseDirEntries (e : FsEntry) : Option (List FsEntry) :=
  (throwIf (!fseIsDirectory e)).bind fun _ =>
    match e with
    | .dir entries _ _ _ _ _ => some entries
    | .file .. => none

/-- The function `fseFile` of the source (`none`: `throwIf` has raised; the
slot 0 of a directory is never returned). -/
def fseFile (e : FsEntry) : Option JSFile :=
  (throwIf (fseIsDirectory e)).bind fun _ =>
    match e with
    | .file file _ _ _ _ _ => some file
    | .dir .. => none

/-- The function `fseSize` of the source. -/
def fseSize : FsEntry → Nat
  | .file _ _ _ _ size _ => size
  | .dir _ _ _ _ size _ => size

/-- The function `fseSetSize` of the source; the entry after the
assignment. -/
def fseSetSize : FsEntry → Nat → FsEntry
  | .file f h name path _ m, n => .file f h name path n m
  | .dir es h name path _ m, n => .dir es h name path n m

/-- The function `fseMeta` of the source. -/
def fseMeta : FsEntry → Option MetaObject
  | .file _ _ _ _ _ m => m
  | .dir _ _ _ _ _ m => m

/-- The function `fseSetMetaObj` of the source; the entry after the
assignment. -/
def fseSetMetaObj : FsEntry → Option MetaObject → FsEntry
  | .file f h name path size _, o => .file f h name path size o
  | .dir es h name path size _, o => .dir es h name path size o

/-- The function `fseSetMeta` of the source; the entry after the call. -/
def fseSetMeta (e : FsEntry) (key : JSString) (val : JSValue) : FsEntry :=
  let meta0 := (fseMeta e).getD emptyObject
  let meta1 := setProperty meta0 key val
  fseSetMetaObj e (some meta1)

/-- The function `fseGetMeta` of the source. -/
def fseGetMeta (e : FsEntry) (key : JSString) : PropertyValue :=
  match fseMeta e with
  | some metaObj => getProperty metaObj key
  | none => .value .undefined

/-- The assignment `e[fsePathIdx] = path`. -/
def setPath : FsEntry → JSString → FsEntry
  | .file f h name _ size m, path => .file f h name path size m
  | .dir es h name _ size m, path => .dir es h name path size m

/-- The function `dontSkip` of the source, the default skip predicate. -/
def dontSkip (_entry : Handle) (_dir : JSString) : Bool := false

mutual
/-- The function `readDirRecur` of the source, with its three arguments
given. -/
def readDirRecur : DirHandle → (Handle → JSString → Bool) → JSString → FsEntry
  | .mk name values, skipEntryFn, dir =>
    .dir (readDirLoop (.mk name values) skipEntryFn dir values) (.mk name values) name [] 0 none
/-- The loop `for await (const entry of dirHandle.values())` of `readDirRecur`
over the handles still to be enumerated; the result is what is pushed on
`res`. -/
def readDirLoop (dirHandle : DirHandle) (skipEntryFn : Handle → JSString → Bool)
    (dir : JSString) : List Handle → List FsEntry
  | [] => []
  | entry :: rest =>
    let path := if dir = [] then entry.name else dir ++ '/' :: entry.name
    if skipEntryFn entry dir then readDirLoop dirHandle skipEntryFn dir rest
    else
      match entry with
      | .file file =>
        .file file dirHandle file.name path file.size none
          :: readDirLoop dirHandle skipEntryFn dir rest
      | .directory d =>
        setPath (readDirRecur d skipEntryFn path) path
          :: readDirLoop dirHandle skipEntryFn dir rest
end

/-- A call of `readDirRecur` in which the second and third argument may be
left out (`none`): the defaults are `dontSkip` and `dirHandle.name`. -/
def readDirRecurDefault (dirHandle : DirHandle)
    (skipEntryFn : Option (Handle → JSString → Bool)) (dir : Option JSString) : FsEntry :=
  readDirRecur dirHandle (skipEntryFn.getD dontSkip) (dir.getD dirHandle.name)

/-! ## The words of the specification about the tree -/

/-- The path of a child in the words of the specification: the name when the
parent path is empty, else the parent path, `/`, and the name. -/
def joinPath (parentPath name : JSString) : JSString :=
  if parentPath = [] then name else parentPath ++ '/' :: name

mutual
/-- Whether the path of `e` is its name joined to `parentPath`, and the same
holds below `e` with the path field of `e` as parent path. -/
def pathsJoined (parentPath : JSString) : FsEntry → Bool
  | .file _ _ name path _ _ => decide (path = joinPath parentPath name)
  | .dir entries _ name path _ _ =>
    decide (path = joinPath parentPath name) && allPathsJoined path entries
/-- Whether `pathsJoined parentPath` holds of every entry of the list. -/
def allPathsJoined (parentPath : JSString) : List FsEntry → Bool
  | [] => true
  | e :: es => pathsJoined parentPath e && allPathsJoined parentPath es
end

mutual
/-- The entry `e` and every entry below it, at any depth. -/
def entriesOf : FsEntry → List FsEntry
  | .file f h name path size m => [.file f h name path size m]
  | .dir entries h name path size m =>
    .dir entries h name path size m :: entriesBelow entries
/-- Every entry of the list and every entry below one of them. -/
def entriesBelow : List FsEntry → List FsEntry
  | [] => []
  | e :: es => entriesOf e ++ entriesBelow es
end

/-- The entry that `readDirRecur` builds for an enumerated handle that is not
skipped, in a directory `dirHandle` read with prefix `dir`. -/
def entryFor (dirHandle : DirHandle) (skipEntryFn : Handle → JSString → Bool)
    (dir : JSString) : Handle → FsEntry
  | .file file => .file file dirHandle file.name (joinPath dir file.name) file.size none
  | .directory d =>
    setPath (readDirRecur d skipEntryFn (joinPath dir d.name)) (joinPath dir d.name)

/-! ## The words of the specification about line endings -/

/-- The conversion from Unix to Windows line endings: every byte `0x0A` is
replaced by the pair `0x0D 0x0A`. -/
def unixToWindows : List UInt8 → List UInt8
  | [] => []
  | x :: r => if x = 0x0A then 0x0D :: 0x0A :: unixToWindows r else x :: unixToWindows r

/-- The loop of `lineCount` ends with the number of line feeds seen and a
pending line exactly when the last byte seen was not a line feed. -/
theorem lineCount_loop (b : List UInt8) :
    b.foldl lineCountStep (0, 0)
      = (b.count 10, if b ≠ [] ∧ b.getLast? ≠ some 10 then 1 else 0) := by
  induction b using List.reverseRecOn with
  | nil => simp
  | append_singleton l x ih =>
    rw [List.foldl_append, ih]
    by_cases hx : x = 10
    · subst hx
      simp [lineCountStep, List.count_append]
    · simp [lineCountStep, hx, List.count_append, List.count_singleton]

/-- C1: for every byte sequence `b`, `lineCount b` is the number of bytes
equal to `0x0A`, plus 1 when `b` is non-empty and its last byte is not `0x0A`;
in particular the five sample values of the specification. -/
theorem lineCount_formula :
    (∀ b : List UInt8, lineCount b
        = b.count 0x0A + (if b ≠ [] ∧ b.getLast? ≠ some 0x0A then 1 else 0))
    ∧ lineCount [] = 0
    ∧ lineCount [0x41] = 1
    ∧ lineCount [0x41, 0x0A] = 1
    ∧ lineCount [0x41, 0x0A, 0x42] = 2
    ∧ lineCount [0x0A, 0x0A] = 2 := by
  refine ⟨?_, by decide, by decide, by decide, by decide, by decide⟩
  intro b
  unfold lineCount
  by_cases hb : b.length = 0
  · have : b = [] := List.length_eq_zero.mp hb
    subst this
    simp
  · rw [if_neg hb, lineCount_loop]

/-! ## Splitting and joining -/

theorem split_ne_nil (sep : Char) (s : JSString) : split sep s ≠ [] := by
  cases s with
  | nil => simp [split]
  | cons c cs =>
    unfold split
    split_ifs
    · simp
    · split <;> simp

theorem split_cons_eq (sep : Char) (cs : JSString) :
    split sep (sep :: cs) = [] :: split sep cs := by
  simp [split]

theorem split_cons_ne (sep c : Char) (cs : JSString) (hc : c ≠ sep) :
    ∃ p ps, split sep cs = p :: ps ∧ split sep (c :: cs) = (c :: p) :: ps := by
  cases hs : split sep cs with
  | nil => exact absurd hs (split_ne_nil sep cs)
  | cons p ps => exact ⟨p, ps, rfl, by simp [split, hc, hs]⟩

/-- A string without the separator is a single piece. -/
theorem split_of_not_mem (sep : Char) (s : JSString) (h : sep ∉ s) :
    split sep s = [s] := by
  induction s with
  | nil => rfl
  | cons c cs ih =>
    have hc : c ≠ sep := fun e => h (by simp [e])
    have hcs : sep ∉ cs := fun e => h (by simp [e])
    simp [split, hc, ih hcs]

/-- Splitting in front of the last separator: the pieces of the part before
it, then the part after it. -/
theorem split_append_sep (sep : Char) (a x : JSString) (h : sep ∉ x) :
    split sep (a ++ sep :: x) = split sep a ++ [x] := by
  induction a with
  | nil => simp [split, split_of_not_mem sep x h]
  | cons c cs ih =>
    by_cases hc : c = sep
    · subst hc
      rw [List.cons_append, split_cons_eq, split_cons_eq, ih]
      rfl
    · obtain ⟨p, ps, hs, hcs⟩ := split_cons_ne sep c cs hc
      obtain ⟨p2, ps2, hs2, hcs2⟩ := split_cons_ne sep c (cs ++ sep :: x) hc
      rw [List.cons_append, hcs, hcs2]
      rw [ih, hs] at hs2
      simp only [List.cons_append, List.cons.injEq] at hs2
      obtain ⟨rfl, rfl⟩ := hs2
      rfl

theorem join_cons_cons (sep : Char) (p q : JSString) (ps : List JSString) :
    join sep (p :: q :: ps) = p ++ sep :: join sep (q :: ps) := rfl

theorem join_cons_of_ne_nil (sep : Char) (p : JSString) (l : List JSString)
    (hl : l ≠ []) : join sep (p :: l) = p ++ sep :: join sep l := by
  cases l with
  | nil => exact absurd rfl hl
  | cons q qs => rfl

/-- Joining the pieces of a string gives the string back. -/
theorem join_split (sep : Char) (a : JSString) : join sep (split sep a) = a := by
  induction a with
  | nil => rfl
  | cons c cs ih =>
    by_cases hc : c = sep
    · subst hc
      rw [split_cons_eq, join_cons_of_ne_nil _ _ _ (split_ne_nil _ _), ih]
      rfl
    · obtain ⟨p, ps, hs, hcs⟩ := split_cons_ne sep c cs hc
      rw [hcs]
      rw [hs] at ih
      cases ps with
      | nil =>
        have : p = cs := ih
        subst this
        rfl
      | cons q qs =>
        rw [join_cons_cons] at ih ⊢
        rw [← ih]
        rfl

theorem join_append_singleton (sep : Char) (l : List JSString) (x : JSString)
    (hl : l ≠ []) : join sep (l ++ [x]) = join sep l ++ sep :: x := by
  induction l with
  | nil => exact absurd rfl hl
  | cons p ps ih =>
    cases ps with
    | nil => rfl
    | cons q qs =>
      have h1 := ih (by simp)
      rw [List.cons_append, join_cons_of_ne_nil _ _ _ (by simp), h1, join_cons_cons]
      simp

/-- No piece of a split contains the separator. -/
theorem not_mem_of_mem_split (sep : Char) (s p : JSString) (hp : p ∈ split sep s) :
    sep ∉ p := by
  induction s generalizing p with
  | nil =>
    have : p = [] := by simpa [split] using hp
    simp [this]
  | cons c cs ih =>
    by_cases hc : c = sep
    · subst hc
      rw [split_cons_eq] at hp
      rcases List.mem_cons.mp hp with rfl | hp
      · simp
      · exact ih p hp
    · obtain ⟨q, qs, hs, hcs⟩ := split_cons_ne sep c cs hc
      rw [hcs] at hp
      rw [hs] at ih
      rcases List.mem_cons.mp hp with rfl | hp
      · have := ih q (by simp)
        simp only [List.mem_cons, not_or]
        exact ⟨fun e => hc e.symm, this⟩
      · exact ih p (by simp [hp])

/-- A string that contains the separator is cut at its last occurrence. -/
theorem exists_last_sep (sep : Char) (s : JSString) (h : sep ∈ s) :
    ∃ a x, s = a ++ sep :: x ∧ sep ∉ x := by
  induction s with
  | nil => simp at h
  | cons c cs ih =>
    by_cases hcs : sep ∈ cs
    · obtain ⟨a, x, rfl, hx⟩ := ih hcs
      exact ⟨c :: a, x, rfl, hx⟩
    · have hc : sep = c := by
        rcases List.mem_cons.mp h with e | e
        · exact e
        · exact absurd e hcs
      exact ⟨[], cs, by simp [hc], hcs⟩

theorem getD_append_length (l : List JSString) (x d : JSString) :
    (l ++ [x]).getD l.length d = x := by
  simp [List.getD_eq_getElem?_getD]

theorem take_append_length (l : List JSString) (x : JSString) :
    (l ++ [x]).take l.length = l := by
  simp

theorem set_append_length (l : List JSString) (x y : JSString) :
    (l ++ [x]).set l.length y = l ++ [y] := by
  simp

/-! ## The two halves of `genNextUniqueFileName` -/

theorem length_split_pos (sep : Char) (s : JSString) : 0 < (split sep s).length :=
  List.length_pos.mpr (split_ne_nil sep s)

/-- The first half on a name with a dot: the extension is what follows the
last dot, the stem what precedes it. -/
theorem gen_of_dot (a x : JSString) (hx : '.' ∉ x) :
    genNextUniqueFileName (a ++ '.' :: x) = stemSuccessor a ('.' :: x) := by
  have hlen := length_split_pos '.' a
  have h1 : (split '.' a ++ [x]).length > 1 := by
    rw [List.length_append, List.length_singleton]; omega
  have h2 : (split '.' a ++ [x]).length - 1 = (split '.' a).length := by simp
  simp only [genNextUniqueFileName, split_append_sep '.' a x hx, h1, if_true, h2,
    getD_append_length, take_append_length, join_split]
  rfl

/-- The first half on a name without a dot: no extension, the stem is the
name. -/
theorem gen_of_no_dot (s : JSString) (hs : '.' ∉ s) :
    genNextUniqueFileName s = stemSuccessor s [] := by
  simp only [genNextUniqueFileName, split_of_not_mem '.' s hs]
  rfl

theorem stemSuccessor_no_dash (t ext : JSString) (ht : '-' ∉ t) :
    stemSuccessor t ext = t ++ "-1".toList ++ ext := by
  simp [stemSuccessor, split_of_not_mem '-' t ht]

theorem stemSuccessor_dash (pre seg ext : JSString) (hseg : '-' ∉ seg) :
    stemSuccessor (pre ++ '-' :: seg) ext =
      match toNumberOrNull seg with
      | none => (pre ++ '-' :: seg) ++ "-1".toList ++ ext
      | some n => pre ++ '-' :: numberToString (addOne n) ++ ext := by
  have hlen := length_split_pos '-' pre
  have h1 : ¬ (split '-' pre ++ [seg]).length = 1 := by
    rw [List.length_append, List.length_singleton]; omega
  have h2 : (split '-' pre ++ [seg]).length - 1 = (split '-' pre).length := by simp
  simp only [stemSuccessor, split_append_sep '-' pre seg hseg, h1, if_false, h2,
    getD_append_length, set_append_length]
  cases toNumberOrNull seg with
  | none => rfl
  | some n =>
    simp only []
    rw [join_append_singleton _ _ _ (split_ne_nil _ _), join_split]

/-! ## Decimal digits -/

theorem digitChar_toNat (m : Nat) (hm : m < 10) : (Nat.digitChar m).toNat = 48 + m := by
  interval_cases m <;> rfl

theorem toDigitsCore_decimal (fuel : Nat) :
    ∀ n acc, n < fuel → ∃ ds : JSString,
      Nat.toDigitsCore 10 fuel n acc = ds ++ acc ∧ ds ≠ [] ∧
      (∀ c ∈ ds, IsDecimalDigit c) ∧ radixValue 10 ds = n := by
  induction fuel with
  | zero => intro n acc h; omega
  | succ fuel ih =>
    intro n acc hn
    have hd : (Nat.digitChar (n % 10)).toNat = 48 + n % 10 :=
      digitChar_toNat _ (Nat.mod_lt _ (by decide))
    have hdig : IsDecimalDigit (Nat.digitChar (n % 10)) := by
      unfold IsDecimalDigit; omega
    have hval : digitValue (Nat.digitChar (n % 10)) = some (n % 10) := by
      unfold digitValue
      rw [if_pos (by omega), hd]
      simp
    by_cases h0 : n / 10 = 0
    · refine ⟨[Nat.digitChar (n % 10)], ?_, by simp, ?_, ?_⟩
      · simp [Nat.toDigitsCore, h0]
      · intro c hc
        rw [List.mem_singleton.mp hc]
        exact hdig
      · simp only [radixValue, List.foldl_cons, List.foldl_nil, hval, Option.getD_some]
        omega
    · obtain ⟨ds, hds, -, hall, hv⟩ :=
        ih (n / 10) (Nat.digitChar (n % 10) :: acc) (by omega)
      refine ⟨ds ++ [Nat.digitChar (n % 10)], ?_, by simp, ?_, ?_⟩
      · simp [Nat.toDigitsCore, h0, hds]
      · intro c hc
        rcases List.mem_append.mp hc with h | h
        · exact hall c h
        · rw [List.mem_singleton.mp h]
          exact hdig
      · unfold radixValue at hv ⊢
        rw [List.foldl_append, hv]
        simp only [List.foldl_cons, List.foldl_nil, hval, Option.getD_some]
        omega

/-- The decimal digits of `k`: a non-empty run of digit characters whose value
is `k`. -/
theorem toDigits_decimal (k : Nat) :
    Nat.toDigits 10 k ≠ [] ∧ (∀ c ∈ Nat.toDigits 10 k, IsDecimalDigit c) ∧
      radixValue 10 (Nat.toDigits 10 k) = k := by
  obtain ⟨ds, hds, hne, hall, hv⟩ := toDigitsCore_decimal (k + 1) k [] (by omega)
  have : Nat.toDigits 10 k = ds := by simpa [Nat.toDigits] using hds
  rw [this]
  exact ⟨hne, hall, hv⟩

theorem isRadixDigit_of_decimal (c : Char) (h : IsDecimalDigit c) :
    isRadixDigit 10 c = true := by
  unfold IsDecimalDigit at h
  unfold isRadixDigit digitValue
  rw [if_pos h]
  simp
  omega

theorem not_isWhiteSpace_of_decimal (c : Char) (h : IsDecimalDigit c) :
    isWhiteSpace c = false := by
  unfold IsDecimalDigit at h
  unfold isWhiteSpace
  simp
  omega

theorem decimal_ne (c d : Char) (h : IsDecimalDigit c) (hd : ¬ IsDecimalDigit d) : c ≠ d :=
  fun e => hd (e ▸ h)

/-- On a run of decimal digits `parseInt` neither skips nor stops: the result
is the Number of the run's value. -/
theorem parseInt_of_decimal (ds : JSString) (hne : ds ≠ [])
    (hall : ∀ c ∈ ds, IsDecimalDigit c) :
    parseInt ds = ofMathInt false (radixValue 10 ds) := by
  cases ds with
  | nil => exact absurd rfl hne
  | cons c cs =>
    have hc : IsDecimalDigit c := hall c (by simp)
    have hdrop : (c :: cs).dropWhile isWhiteSpace = c :: cs := by
      simp [List.dropWhile, not_isWhiteSpace_of_decimal c hc]
    have hsign : parseSign (c :: cs) = (false, c :: cs) := by
      have h1 : c ≠ '-' := decimal_ne c _ hc (by unfold IsDecimalDigit; decide)
      have h2 : c ≠ '+' := decimal_ne c _ hc (by unfold IsDecimalDigit; decide)
      unfold parseSign
      split
      · rename_i h; exact absurd (List.cons.inj h).1 h1
      · rename_i h; exact absurd (List.cons.inj h).1 h2
      · rfl
    have hradix : parseRadix (c :: cs) = (10, c :: cs) := by
      unfold parseRadix
      split
      · rename_i r h
        have : IsDecimalDigit 'x' := by
          have := hall 'x' (by rw [h]; simp)
          exact this
        exact absurd this (by unfold IsDecimalDigit; decide)
      · rename_i r h
        have : IsDecimalDigit 'X' := by
          have := hall 'X' (by rw [h]; simp)
          exact this
        exact absurd this (by unfold IsDecimalDigit; decide)
      · rfl
    have htake : (c :: cs).takeWhile (isRadixDigit 10) = c :: cs := by
      rw [List.takeWhile_eq_self_iff]
      intro d hd
      exact isRadixDigit_of_decimal d (hall d hd)
    simp only [parseInt, hdrop, hsign, hradix, htake]
    simp

theorem parseInt_toDigits (k : Nat) : parseInt (Nat.toDigits 10 k) = ofMathInt false k := by
  obtain ⟨hne, hall, hv⟩ := toDigits_decimal k
  rw [parseInt_of_decimal _ hne hall, hv]

/-! ## Rounding to a double -/

theorem excessBits_spec (fuel : Nat) :
    ∀ v, v ≤ fuel → 2 ^ 53 ≤ v →
      1 ≤ excessBits fuel v ∧ 2 ^ 52 ≤ v / 2 ^ excessBits fuel v ∧
        v / 2 ^ excessBits fuel v < 2 ^ 53 := by
  induction fuel with
  | zero => intro v h1 h2; omega
  | succ fuel ih =>
    intro v hv h53
    have hnot : ¬ v < 2 ^ 53 := by omega
    have hstep : excessBits (fuel + 1) v = excessBits fuel (v / 2) + 1 := by
      show (if v < 2 ^ 53 then 0 else excessBits fuel (v / 2) + 1) = _
      rw [if_neg hnot]
    rw [hstep]
    by_cases hhalf : v / 2 < 2 ^ 53
    · have h0 : excessBits fuel (v / 2) = 0 := by
        cases fuel with
        | zero => rfl
        | succ f =>
          show (if v / 2 < 2 ^ 53 then 0 else excessBits f (v / 2 / 2) + 1) = 0
          rw [if_pos hhalf]
      rw [h0]
      simp only [Nat.zero_add, pow_one]
      omega
    · obtain ⟨h1, h2, h3⟩ := ih (v / 2) (by omega) (by omega)
      have hdiv : v / 2 ^ (excessBits fuel (v / 2) + 1)
          = v / 2 / 2 ^ excessBits fuel (v / 2) := by
        rw [pow_succ', Nat.div_div_eq_div_mul]
      rw [hdiv]
      exact ⟨by omega, h2, h3⟩

/-- Integers below `2 ^ 53` are doubles. -/
theorem toDouble_small (v : Nat) (h : v < 2 ^ 53) : toDouble v = some v := by
  unfold toDouble
  rw [if_pos h]

/-- Rounding never takes an integer from `2 ^ 53` on below `2 ^ 53`. -/
theorem toDouble_large (v y : Nat) (h : 2 ^ 53 ≤ v) (hy : toDouble v = some y) :
    2 ^ 53 ≤ y := by
  obtain ⟨h1, h2, -⟩ := excessBits_spec v v le_rfl h
  have hnot : ¬ v < 2 ^ 53 := by omega
  have hpow : 2 ≤ 2 ^ excessBits v v := by
    calc 2 = 2 ^ 1 := by norm_num
      _ ≤ 2 ^ excessBits v v := Nat.pow_le_pow_right (by norm_num) h1
  have hq : 2 ^ 53 ≤ v / 2 ^ excessBits v v * 2 ^ excessBits v v := by
    calc 2 ^ 53 = 2 ^ 52 * 2 := by norm_num
      _ ≤ (v / 2 ^ excessBits v v) * 2 ^ excessBits v v := Nat.mul_le_mul h2 hpow
  unfold toDouble at hy
  rw [if_neg hnot] at hy
  dsimp only at hy
  split_ifs at hy with hr hlim hlim
  · rw [← Option.some.inj hy, Nat.add_mul]
    omega
  · rw [← Option.some.inj hy]
    exact hq

/-- Only `x` itself converts to a double `x` below `2 ^ 53`. -/
theorem eq_of_toDouble_small (c x : Nat) (hx : x < 2 ^ 53) (h : toDouble c = some x) :
    c = x := by
  by_cases hc : c < 2 ^ 53
  · rw [toDouble_small c hc] at h
    exact Option.some.inj h
  · have := toDouble_large c x (by omega) h
    omega

/-- The search of `shortestFrom` only ever returns a decimal that converts
back to `x`. -/
theorem toDouble_shortestFrom (x : Nat) (hx : toDouble x = some x) (i : Nat) :
    toDouble (shortestFrom x i) = some x := by
  induction i with
  | zero => exact hx
  | succ i ih =>
    unfold shortestFrom
    dsimp only
    split_ifs with h1 h2 h3 h4 h5 h6
    · simp only [Bool.and_eq_true, decide_eq_true_eq] at h1; exact h1.1
    · simp only [Bool.and_eq_true, decide_eq_true_eq] at h1; exact h1.2
    · simp only [Bool.and_eq_true, decide_eq_true_eq] at h1; exact h1.1
    · simp only [Bool.and_eq_true, decide_eq_true_eq] at h1; exact h1.2
    · simp only [decide_eq_true_eq] at h5; exact h5
    · simp only [decide_eq_true_eq] at h6; exact h6
    · exact ih

theorem shortestDecimal_small (x : Nat) (hx : x < 2 ^ 53) : shortestDecimal x = x :=
  eq_of_toDouble_small _ x hx (toDouble_shortestFrom x (toDouble_small x hx) _)

/-! ## Stem and extension -/

theorem takeWhile_append_stop {p : Char → Bool} (l r : JSString) (b : Char)
    (hl : ∀ c ∈ l, p c = true) (hb : p b = false) :
    (l ++ b :: r).takeWhile p = l ∧ (l ++ b :: r).dropWhile p = b :: r := by
  induction l with
  | nil => simp [List.takeWhile, List.dropWhile, hb]
  | cons c cs ih =>
    have hc : p c = true := hl c (by simp)
    obtain ⟨h1, h2⟩ := ih (fun d hd => hl d (by simp [hd]))
    simp [List.takeWhile, List.dropWhile, hc, h1, h2]

theorem afterLast_append (sep : Char) (a x : JSString) (hx : sep ∉ x) :
    afterLast sep (a ++ sep :: x) = x := by
  unfold afterLast
  have hrev : (a ++ sep :: x).reverse = x.reverse ++ sep :: a.reverse := by simp
  rw [hrev, (takeWhile_append_stop x.reverse a.reverse sep ?_ ?_).1, List.reverse_reverse]
  · intro c hc
    have : c ≠ sep := fun e => hx (e ▸ List.mem_reverse.mp hc)
    simpa using this
  · simp

theorem beforeLast_append (sep : Char) (a x : JSString) (hx : sep ∉ x) :
    beforeLast sep (a ++ sep :: x) = a := by
  unfold beforeLast
  have hrev : (a ++ sep :: x).reverse = x.reverse ++ sep :: a.reverse := by simp
  rw [hrev, (takeWhile_append_stop x.reverse a.reverse sep ?_ ?_).2]
  · simp
  · intro c hc
    have : c ≠ sep := fun e => hx (e ▸ List.mem_reverse.mp hc)
    simpa using this
  · simp

theorem stemOf_append (a x : JSString) (hx : '.' ∉ x) : stemOf (a ++ '.' :: x) = a := by
  unfold stemOf
  rw [if_pos (by simp), beforeLast_append '.' a x hx]

theorem extensionOf_append (a x : JSString) (hx : '.' ∉ x) :
    extensionOf (a ++ '.' :: x) = '.' :: x := by
  unfold extensionOf
  rw [if_pos (by simp), afterLast_append '.' a x hx]

/-- The first half of `genNextUniqueFileName` computes the stem and the
extension of the specification. -/
theorem gen_eq_stemSuccessor (s : JSString) :
    genNextUniqueFileName s = stemSuccessor (stemOf s) (extensionOf s) := by
  by_cases h : '.' ∈ s
  · obtain ⟨a, x, rfl, hx⟩ := exists_last_sep '.' s h
    rw [gen_of_dot a x hx, stemOf_append a x hx, extensionOf_append a x hx]
  · rw [gen_of_no_dot s h]
    unfold stemOf extensionOf
    rw [if_neg h, if_neg h]

/-- A name is its stem followed by its extension. -/
theorem stemOf_append_extensionOf (s : JSString) : stemOf s ++ extensionOf s = s := by
  by_cases h : '.' ∈ s
  · obtain ⟨a, x, rfl, hx⟩ := exists_last_sep '.' s h
    rw [stemOf_append a x hx, extensionOf_append a x hx]
  · unfold stemOf extensionOf
    rw [if_neg h, if_neg h, List.append_nil]

/-! ## Numbers below `2 ^ 53` -/

theorem numberToString_small (k : Nat) (hk : k < 2 ^ 53) :
    numberToString (.finite false k) = decimal k := by
  cases k with
  | zero => decide
  | succ m =>
    show magnitudeToString (m + 1) = decimal (m + 1)
    unfold magnitudeToString
    dsimp only
    rw [shortestDecimal_small _ hk, if_pos (by omega)]
    rfl

theorem ofMathInt_small (b : Bool) (k : Nat) (hk : k < 2 ^ 53) :
    ofMathInt b k = .finite b k := by
  unfold ofMathInt
  rw [toDouble_small k hk]

theorem toNumberOrNull_decimal (k : Nat) (hk : k < 2 ^ 53) :
    toNumberOrNull (decimal k) = some (.finite false k) := by
  unfold toNumberOrNull
  dsimp only
  have hp : parseInt (decimal k) = .finite false k := by
    unfold decimal
    rw [parseInt_toDigits, ofMathInt_small _ k hk]
  rw [hp, numberToString_small k hk, if_pos rfl]

theorem numberToString_addOne_small (k : Nat) (hk : k < 2 ^ 53) :
    numberToString (addOne (.finite false k)) = decimal (k + 1) := by
  show numberToString (ofMathInt false (k + 1)) = decimal (k + 1)
  by_cases h : k + 1 < 2 ^ 53
  · rw [ofMathInt_small _ _ h, numberToString_small _ h]
  · have : k + 1 = 9007199254740992 := by omega
    rw [this]
    decide

theorem dash_not_mem_decimal (k : Nat) : '-' ∉ decimal k := by
  intro h
  have := (toDigits_decimal k).2.1 '-' h
  exact absurd this (by unfold IsDecimalDigit; decide)

theorem dot_not_mem_decimal (k : Nat) : '.' ∉ decimal k := by
  intro h
  have := (toDigits_decimal k).2.1 '.' h
  exact absurd this (by unfold IsDecimalDigit; decide)

/-- The successor of a stem that ends in `-k`, `k` below `2 ^ 53`. -/
theorem stemSuccessor_decimal (pre ext : JSString) (k : Nat) (hk : k < 2 ^ 53) :
    stemSuccessor (pre ++ '-' :: decimal k) ext = pre ++ '-' :: decimal (k + 1) ++ ext := by
  rw [stemSuccessor_dash pre (decimal k) ext (dash_not_mem_decimal k),
    toNumberOrNull_decimal k hk]
  dsimp only
  rw [numberToString_addOne_small k hk]

/-! ## Rounding from `2 ^ 53` on -/

/-- The shape of a rounding from `2 ^ 53` on: with `e` the number of excess
bits, `v` lies between `2 ^ 52 * 2 ^ e` and `2 ^ 53 * 2 ^ e`, the double is a
multiple of `2 ^ e`, and it is at most half of `2 ^ e` away from `v`. -/
theorem toDouble_shape (v y : Nat) (hv : 2 ^ 53 ≤ v) (h : toDouble v = some y) :
    ∃ e, 1 ≤ e ∧ 2 ^ 52 * 2 ^ e ≤ v ∧ v < 2 ^ 53 * 2 ^ e ∧ 2 ^ e ∣ y ∧
      2 ^ 52 * 2 ^ e ≤ y ∧ 2 * y ≤ 2 * v + 2 ^ e ∧ 2 * v ≤ 2 * y + 2 ^ e := by
  obtain ⟨h1, h2, h3⟩ := excessBits_spec v v le_rfl hv
  have hnot : ¬ v < 2 ^ 53 := by omega
  unfold toDouble at h
  rw [if_neg hnot] at h
  dsimp only at h
  generalize excessBits v v = e at h h1 h2 h3
  refine ⟨e, h1, ?_⟩
  have hP : 2 ^ e = 2 * 2 ^ (e - 1) := by
    rw [← pow_succ']
    congr 1
    omega
  have hdm : v / 2 ^ e * 2 ^ e + v % 2 ^ e = v := by
    rw [Nat.mul_comm]
    exact Nat.div_add_mod v (2 ^ e)
  have hr : v % 2 ^ e < 2 ^ e := Nat.mod_lt _ (by positivity)
  have hA1 : 2 ^ 52 * 2 ^ e ≤ v / 2 ^ e * 2 ^ e := Nat.mul_le_mul_right _ h2
  have hA2 : (v / 2 ^ e + 1) * 2 ^ e ≤ 2 ^ 53 * 2 ^ e := Nat.mul_le_mul_right _ (by omega)
  have hA3 : (v / 2 ^ e + 1) * 2 ^ e = v / 2 ^ e * 2 ^ e + 2 ^ e := by
    rw [Nat.add_mul, Nat.one_mul]
  rw [hA3] at hA2
  split_ifs at h with hr1 hlim hlim
  · have hy := Option.some.inj h
    rw [hA3] at hy
    refine ⟨by omega, by omega, ?_, by omega, ?_, by omega⟩
    · rw [← hy]
      exact Dvd.dvd.add (Dvd.intro_left _ rfl) (dvd_refl _)
    · rcases hr1 with hr1 | ⟨hr1, -⟩ <;> omega
  · have hy := Option.some.inj h
    have hr2 : v % 2 ^ e ≤ 2 ^ (e - 1) := by
      by_contra hc
      exact hr1 (Or.inl (by omega))
    refine ⟨by omega, by omega, ?_, by omega, by omega, by omega⟩
    rw [← hy]
    exact Dvd.intro_left _ rfl

theorem pow_dvd_bound : (10 : Nat) ^ 21 = 2 ^ 17 * 7629394531250000 := by norm_num

/-- Rounding an integer below `10 ^ 21`: the double is at most
`10 ^ 21 - 2 ^ 17`, unless the integer is within `2 ^ 16` of `10 ^ 21` and is
rounded up to it. -/
theorem toDouble_below (v y : Nat) (h : toDouble v = some y) (hv : v < 10 ^ 21) :
    y + 2 ^ 17 ≤ 10 ^ 21 ∨ (y = 10 ^ 21 ∧ 10 ^ 21 ≤ v + 2 ^ 16) := by
  by_cases hs : v < 2 ^ 53
  · rw [toDouble_small v hs] at h
    have := Option.some.inj h
    left
    omega
  · obtain ⟨e, h1, h2, h3, h4, h5, h6, h7⟩ := toDouble_shape v y (by omega) h
    have he : e ≤ 17 := by
      by_contra hc
      have : 2 ^ 18 ≤ 2 ^ e := Nat.pow_le_pow_right (by norm_num) (by omega)
      omega
    interval_cases e <;> norm_num at * <;> omega

/-- Rounding an integer from `10 ^ 21` on: the double is at least
`10 ^ 21 - 2 ^ 16`. -/
theorem toDouble_above (v y : Nat) (h : toDouble v = some y) (hv : 10 ^ 21 ≤ v) :
    10 ^ 21 ≤ y + 2 ^ 16 := by
  obtain ⟨e, h1, h2, h3, h4, h5, h6, h7⟩ := toDouble_shape v y (by omega) h
  by_cases he : e ≤ 17
  · interval_cases e <;> norm_num at * <;> omega
  · have : 2 ^ 18 ≤ 2 ^ e := Nat.pow_le_pow_right (by norm_num) (by omega)
    omega

/-- The search of `shortestFrom` returns `x` or a decimal that converts back
to `x`. -/
theorem shortestFrom_cases (x i : Nat) :
    shortestFrom x i = x ∨ toDouble (shortestFrom x i) = some x := by
  induction i with
  | zero => exact Or.inl rfl
  | succ i ih =>
    unfold shortestFrom
    dsimp only
    split_ifs with h1 h2 h3 h4 h5 h6
    · simp only [Bool.and_eq_true, decide_eq_true_eq] at h1; exact Or.inr h1.1
    · simp only [Bool.and_eq_true, decide_eq_true_eq] at h1; exact Or.inr h1.2
    · simp only [Bool.and_eq_true, decide_eq_true_eq] at h1; exact Or.inr h1.1
    · simp only [Bool.and_eq_true, decide_eq_true_eq] at h1; exact Or.inr h1.2
    · simp only [decide_eq_true_eq] at h5; exact Or.inr h5
    · simp only [decide_eq_true_eq] at h6; exact Or.inr h6
    · exact ih

/-- A double of at most `10 ^ 21 - 2 ^ 17` is printed from a decimal below
`10 ^ 21`. -/
theorem shortestDecimal_below (y : Nat) (hy : y + 2 ^ 17 ≤ 10 ^ 21) :
    shortestDecimal y < 10 ^ 21 := by
  by_contra hc
  rcases shortestFrom_cases y ((Nat.toDigits 10 y).length - 1) with h | h
  · unfold shortestDecimal at hc
    rw [h] at hc
    omega
  · have := toDouble_above _ y h (by unfold shortestDecimal at hc; omega)
    omega

/-! ## What passes the test of `toNumberOrNull` -/

theorem radixValue_zeros (L : JSString) (h : ∀ c ∈ L, c = '0') : radixValue 10 L = 0 := by
  unfold radixValue
  induction L with
  | nil => rfl
  | cons c cs ih =>
    have hc : c = '0' := h c (by simp)
    subst hc
    rw [List.foldl_cons]
    have : (0 * 10 + (digitValue '0').getD 0) = 0 := by decide
    rw [this]
    exact ih (fun d hd => h d (by simp [hd]))

/-- A positive decimal has a first significant digit. -/
theorem significantDigits_cons (c : Nat) (hc : 0 < c) :
    ∃ d ds, significantDigits c = d :: ds ∧ IsDecimalDigit d := by
  obtain ⟨-, hall, hv⟩ := toDigits_decimal c
  have hne : (Nat.toDigits 10 c).reverse.dropWhile (fun d => decide (d = '0')) ≠ [] := by
    intro h
    rw [List.dropWhile_eq_nil_iff] at h
    have hz : ∀ x ∈ Nat.toDigits 10 c, x = '0' := by
      intro x hx
      have := h x (List.mem_reverse.mpr hx)
      simpa using this
    have := radixValue_zeros _ hz
    omega
  have hne2 : significantDigits c ≠ [] := by
    unfold significantDigits
    simpa using hne
  cases hs : significantDigits c with
  | nil => exact absurd hs hne2
  | cons d ds =>
    refine ⟨d, ds, rfl, ?_⟩
    have hd : d ∈ significantDigits c := by rw [hs]; simp
    unfold significantDigits at hd
    rw [List.mem_reverse] at hd
    have hd2 := (List.dropWhile_suffix _).subset hd
    exact hall d (List.mem_reverse.mp hd2)

/-- A digit followed by `e` or `.`: `parseInt` reads the digit and stops. -/
theorem parseInt_digit_stop (d nd : Char) (t : JSString) (hd : IsDecimalDigit d)
    (hnd : nd = 'e' ∨ nd = '.') :
    ∃ v, v ≤ 9 ∧ parseInt (d :: nd :: t) = .finite false v := by
  have hdrop : (d :: nd :: t).dropWhile isWhiteSpace = d :: nd :: t := by
    simp [List.dropWhile, not_isWhiteSpace_of_decimal d hd]
  have hsign : parseSign (d :: nd :: t) = (false, d :: nd :: t) := by
    have h1 : d ≠ '-' := decimal_ne d _ hd (by unfold IsDecimalDigit; decide)
    have h2 : d ≠ '+' := decimal_ne d _ hd (by unfold IsDecimalDigit; decide)
    unfold parseSign
    split
    · rename_i h; exact absurd (List.cons.inj h).1 h1
    · rename_i h; exact absurd (List.cons.inj h).1 h2
    · rfl
  have hradix : parseRadix (d :: nd :: t) = (10, d :: nd :: t) := by
    unfold parseRadix
    split
    · rename_i r h
      have h2 := (List.cons.inj (List.cons.inj h).2).1
      rcases hnd with e | e <;> rw [e] at h2 <;> exact absurd h2 (by decide)
    · rename_i r h
      have h2 := (List.cons.inj (List.cons.inj h).2).1
      rcases hnd with e | e <;> rw [e] at h2 <;> exact absurd h2 (by decide)
    · rfl
  have hnd2 : isRadixDigit 10 nd = false := by
    rcases hnd with e | e <;> rw [e] <;> decide
  have htake : (d :: nd :: t).takeWhile (isRadixDigit 10) = [d] := by
    simp [List.takeWhile, isRadixDigit_of_decimal d hd, hnd2]
  have hval : radixValue 10 [d] = d.toNat - 48 := by
    unfold IsDecimalDigit at hd
    simp [radixValue, digitValue, hd]
  refine ⟨d.toNat - 48, by unfold IsDecimalDigit at hd; omega, ?_⟩
  simp only [parseInt, hdrop, hsign, hradix, htake, hval]
  rw [if_neg (by simp), ofMathInt_small]
  unfold IsDecimalDigit at hd
  omega

/-- The exponential form is read back by `parseInt` as its first digit. -/
theorem parseInt_exponentForm (c : Nat) (hc : 0 < c) :
    ∃ v, v ≤ 9 ∧ parseInt (exponentForm c) = .finite false v := by
  obtain ⟨d, ds, hs, hd⟩ := significantDigits_cons c hc
  unfold exponentForm
  rw [hs]
  cases ds with
  | nil => exact parseInt_digit_stop d 'e' _ hd (Or.inl rfl)
  | cons d2 ds2 => exact parseInt_digit_stop d '.' _ hd (Or.inr rfl)

theorem dot_not_mem_toDigits (k : Nat) : '.' ∉ Nat.toDigits 10 k := dot_not_mem_decimal k

/-- The string of a double of at most `10 ^ 21 - 2 ^ 17` has no dot. -/
theorem dot_not_mem_numberToString (b : Bool) (y : Nat) (hy : y + 2 ^ 17 ≤ 10 ^ 21) :
    '.' ∉ numberToString (.finite b y) := by
  have hm : '.' ∉ magnitudeToString y := by
    unfold magnitudeToString
    dsimp only
    rw [if_pos (shortestDecimal_below y hy)]
    exact dot_not_mem_toDigits _
  cases y with
  | zero => cases b <;> decide
  | succ k =>
    cases b with
    | false => exact hm
    | true =>
      show '.' ∉ '-' :: magnitudeToString (k + 1)
      simp only [List.mem_cons, not_or]
      exact ⟨by decide, hm⟩

/-- A segment without `-` that passes the test of `toNumberOrNull` is `NaN`,
or the decimal digits of a decimal below `10 ^ 21` that converts to the
double found. -/
theorem toNumberOrNull_some (seg : JSString) (n : JSNumber) (hdash : '-' ∉ seg)
    (h : toNumberOrNull seg = some n) :
    (n = .nan ∧ seg = "NaN".toList) ∨
      ∃ m c, n = .finite false m ∧ seg = decimal c ∧ c < 10 ^ 21 ∧ toDouble c = some m ∧
        m + 2 ^ 17 ≤ 10 ^ 21 := by
  unfold toNumberOrNull at h
  dsimp only at h
  split_ifs at h with hseg
  have hn : parseInt seg = n := Option.some.inj h
  rw [hn] at hseg
  cases n with
  | nan => exact Or.inl ⟨rfl, hseg⟩
  | infinity b =>
    exfalso
    cases b with
    | false =>
      have : parseInt seg = .nan := by rw [hseg]; decide
      rw [this] at hn
      exact absurd hn (by simp)
    | true =>
      apply hdash
      rw [hseg]
      decide
  | finite b m =>
    right
    cases m with
    | zero =>
      have hs0 : seg = "0".toList := by rw [hseg]; cases b <;> rfl
      have hp : parseInt seg = .finite false 0 := by rw [hs0]; decide
      rw [hp] at hn
      exact ⟨0, 0, hn.symm, by rw [hs0]; decide, by norm_num, by decide, by norm_num⟩
    | succ k =>
      cases b with
      | true =>
        exfalso
        apply hdash
        rw [hseg]
        show '-' ∈ '-' :: magnitudeToString (k + 1)
        simp
      | false =>
        have hseg2 : seg = magnitudeToString (k + 1) := hseg
        unfold magnitudeToString at hseg2
        dsimp only at hseg2
        by_cases hc : shortestDecimal (k + 1) < 10 ^ 21
        · rw [if_pos hc] at hseg2
          have hp : parseInt seg = ofMathInt false (shortestDecimal (k + 1)) := by
            rw [hseg2, parseInt_toDigits]
          rw [hp] at hn
          unfold ofMathInt at hn
          cases htd : toDouble (shortestDecimal (k + 1)) with
          | none => rw [htd] at hn; exact absurd hn (by simp)
          | some y =>
            rw [htd] at hn
            have hy : y = k + 1 := by
              have := hn
              simp only [JSNumber.finite.injEq, true_and] at this
              exact this
            rw [hy] at htd
            refine ⟨k + 1, shortestDecimal (k + 1), rfl, hseg2, hc, htd, ?_⟩
            rcases toDouble_below _ _ htd hc with hb | ⟨hb, -⟩
            · exact hb
            · exfalso
              have hk : k + 1 = 1000000000000000000000 := by omega
              rw [hk] at hc
              exact absurd hc (by decide)
        · exfalso
          rw [if_neg hc] at hseg2
          obtain ⟨v, hv, hpv⟩ := parseInt_exponentForm (shortestDecimal (k + 1)) (by omega)
          rw [hseg2, hpv] at hn
          have hkv : v = k + 1 := by
            simp only [JSNumber.finite.injEq, true_and] at hn
            exact hn
          have := shortestDecimal_small (k + 1) (by omega)
          omega

/-- The string that replaces a segment accepted by `toNumberOrNull` has no
dot: it is never in exponential form. -/
theorem dot_not_mem_successor (seg : JSString) (n : JSNumber) (hdash : '-' ∉ seg)
    (h : toNumberOrNull seg = some n) : '.' ∉ numberToString (addOne n) := by
  rcases toNumberOrNull_some seg n hdash h with ⟨rfl, -⟩ | ⟨m, c, rfl, -, -, -, hm⟩
  · decide
  · show '.' ∉ numberToString (ofMathInt false (m + 1))
    unfold ofMathInt
    cases htd : toDouble (m + 1) with
    | none => decide
    | some y =>
      apply dot_not_mem_numberToString
      rcases toDouble_below _ _ htd (by omega) with hb | ⟨-, hb⟩
      · exact hb
      · omega

/-- The result of the second half ends with the extension, and what stands
before it has no dot when the stem has none. -/
theorem stemSuccessor_suffix (t ext : JSString) :
    ∃ M, stemSuccessor t ext = M ++ ext ∧ ('.' ∉ t → '.' ∉ M) := by
  by_cases hd : '-' ∈ t
  · obtain ⟨pre, seg, rfl, hseg⟩ := exists_last_sep '-' t hd
    rw [stemSuccessor_dash pre seg ext hseg]
    cases hn : toNumberOrNull seg with
    | none =>
      refine ⟨(pre ++ '-' :: seg) ++ "-1".toList, rfl, ?_⟩
      intro h hmem
      rcases List.mem_append.mp hmem with e | e
      · exact h e
      · exact absurd e (by decide)
    | some n =>
      refine ⟨pre ++ '-' :: numberToString (addOne n), by simp, ?_⟩
      intro h
      have h1 : '.' ∉ pre := fun e => h (by simp [e])
      have h2 := dot_not_mem_successor seg n hseg hn
      intro hmem
      rcases List.mem_append.mp hmem with e | e
      · exact h1 e
      · rcases List.mem_cons.mp e with e | e
        · exact absurd e (by decide)
        · exact h2 e
  · rw [stemSuccessor_no_dash t ext hd]
    refine ⟨t ++ "-1".toList, rfl, ?_⟩
    intro h hmem
    rcases List.mem_append.mp hmem with e | e
    · exact h e
    · exact absurd e (by decide)

/-! ## How far the `NaN` segment and large suffixes reach -/

theorem decimal_injective (j k : Nat) (h : decimal j = decimal k) : j = k := by
  have hj := (toDigits_decimal j).2.2
  have hk := (toDigits_decimal k).2.2
  unfold decimal at h
  rw [h, hk] at hj
  exact hj.symm

/-- A last segment that is neither `NaN` nor a canonical decimal is rejected by
`toNumberOrNull`, and `-1` is appended to the stem. -/
theorem stemSuccessor_rejected (pre seg ext : JSString) (hseg : '-' ∉ seg)
    (hnan : seg ≠ "NaN".toList) (hdec : ∀ k, seg ≠ decimal k) :
    stemSuccessor (pre ++ '-' :: seg) ext = (pre ++ '-' :: seg) ++ "-1".toList ++ ext := by
  rw [stemSuccessor_dash pre seg ext hseg]
  cases hn : toNumberOrNull seg with
  | none => rfl
  | some n =>
    exfalso
    rcases toNumberOrNull_some seg n hseg hn with ⟨-, h⟩ | ⟨m, c, -, h, -⟩
    · exact hnan h
    · exact hdec c h

/-- Apart from the segment `NaN`, a last segment that is not a canonical
decimal gets `-1` appended to the stem. -/
theorem genNextUniqueFileName_rejected (s pre seg : JSString)
    (hstem : stemOf s = pre ++ '-' :: seg) (hseg : '-' ∉ seg)
    (hnan : seg ≠ "NaN".toList) (hdec : ∀ k, seg ≠ decimal k) :
    genNextUniqueFileName s = stemOf s ++ "-1".toList ++ extensionOf s := by
  rw [gen_eq_stemSuccessor, hstem, stemSuccessor_rejected pre seg _ hseg hnan hdec]

/-- Apart from a stem that ends in `-NaN` or in `-k` with `k` from `2 ^ 53` on,
the result differs from the name. -/
theorem genNextUniqueFileName_ne_self (s : JSString)
    (h : ∀ pre seg, stemOf s = pre ++ '-' :: seg → '-' ∉ seg →
      seg ≠ "NaN".toList ∧ ∀ k, 2 ^ 53 ≤ k → seg ≠ decimal k) :
    genNextUniqueFileName s ≠ s := by
  have hlen : ∀ t e : JSString, t ++ "-1".toList ++ e ≠ t ++ e := by
    intro t e he
    have := congrArg List.length he
    simp at this
    omega
  intro heq
  rw [gen_eq_stemSuccessor] at heq
  have heq2 : stemSuccessor (stemOf s) (extensionOf s) = stemOf s ++ extensionOf s :=
    heq.trans (stemOf_append_extensionOf s).symm
  generalize extensionOf s = E at heq2
  by_cases hd : '-' ∈ stemOf s
  · obtain ⟨pre, seg, hst, hseg⟩ := exists_last_sep '-' (stemOf s) hd
    obtain ⟨hnan, hbig⟩ := h pre seg hst hseg
    rw [hst] at heq2
    cases hn : toNumberOrNull seg with
    | none =>
      rw [stemSuccessor_dash pre seg _ hseg, hn] at heq2
      exact hlen _ _ heq2
    | some n =>
      rcases toNumberOrNull_some seg n hseg hn with ⟨-, e⟩ | ⟨m, c, -, e, -, -, -⟩
      · exact hnan e
      · have hc : c < 2 ^ 53 := by
          by_contra hcon
          exact hbig c (by omega) e
        rw [e, stemSuccessor_decimal pre E c hc] at heq2
        have h3 : pre ++ '-' :: decimal (c + 1) ++ E
            = pre ++ ('-' :: (decimal (c + 1) ++ E)) := by simp
        have h4 : (pre ++ '-' :: decimal c) ++ E
            = pre ++ ('-' :: (decimal c ++ E)) := by simp
        rw [h3, h4] at heq2
        have h5 := List.cons.inj (List.append_cancel_left heq2)
        have h7 := decimal_injective _ _ (List.append_cancel_right h5.2)
        omega
  · rw [stemSuccessor_no_dash _ _ hd] at heq2
    exact hlen _ _ heq2

/-! ## Claims about `genNextUniqueFileName` -/

/-- C2: the successor name is not always a different name. The segment `NaN`
passes the round-trip test of `toNumberOrNull` (`parseInt` gives `NaN`, whose
string is `NaN`), `NaN + 1` is `NaN` again, and `foo-NaN.txt` is returned
unchanged. -/
theorem genNextUniqueFileName_NaN_unchanged :
    genNextUniqueFileName "foo-NaN.txt".toList = "foo-NaN.txt".toList := by
  decide

/-- C3, as stated, fails at `k = 2 ^ 53`: the stem of
`foo-9007199254740992.txt` ends in the canonical decimal of `2 ^ 53`, but the
result does not carry `2 ^ 53 + 1` (the sum is rounded back to `2 ^ 53`). -/
theorem genNextUniqueFileName_increment_fails :
    stemOf "foo-9007199254740992.txt".toList
        = "foo".toList ++ '-' :: decimal 9007199254740992 ∧
      genNextUniqueFileName "foo-9007199254740992.txt".toList
        ≠ "foo".toList ++ '-' :: decimal (9007199254740992 + 1)
            ++ extensionOf "foo-9007199254740992.txt".toList := by
  decide

/-- C3 (amended): when the stem of the name ends in `-` followed by the
canonical decimal of a natural number `k` below `2 ^ 53`, the result is the
name with that last segment replaced by the canonical decimal of `k + 1`, the
extension unchanged. -/
theorem genNextUniqueFileName_increment (s pre : JSString) (k : Nat)
    (hstem : stemOf s = pre ++ '-' :: decimal k) (hk : k < 2 ^ 53) :
    genNextUniqueFileName s = pre ++ '-' :: decimal (k + 1) ++ extensionOf s := by
  rw [gen_eq_stemSuccessor, hstem, stemSuccessor_decimal pre _ k hk]

theorem genNextUniqueFileName_increment_witness :
    genNextUniqueFileName "foo-9.txt".toList = "foo-10.txt".toList :=
  genNextUniqueFileName_increment "foo-9.txt".toList "foo".toList 9 (by decide) (by decide)

/-- C4: a last segment that is not a canonical decimal is not always followed
by a new `-1` segment. The last segment of the stem of `a-NaN.js` is `NaN`,
and the result is not the stem with `-1` appended, then the extension. -/
theorem genNextUniqueFileName_NaN_not_appended :
    stemOf "a-NaN.js".toList = "a".toList ++ '-' :: "NaN".toList ∧
      genNextUniqueFileName "a-NaN.js".toList = "a-NaN.js".toList ∧
      genNextUniqueFileName "a-NaN.js".toList
        ≠ stemOf "a-NaN.js".toList ++ "-1".toList ++ extensionOf "a-NaN.js".toList := by
  decide

/-- C5: when the stem of the name contains no `-`, the result is the stem,
then `-1`, then the extension. -/
theorem genNextUniqueFileName_no_dash (s : JSString) (h : '-' ∉ stemOf s) :
    genNextUniqueFileName s = stemOf s ++ "-1".toList ++ extensionOf s := by
  rw [gen_eq_stemSuccessor, stemSuccessor_no_dash _ _ h]

theorem genNextUniqueFileName_no_dash_witness :
    genNextUniqueFileName "foo.txt".toList = "foo-1.txt".toList ∧
      genNextUniqueFileName "foo".toList = "foo-1".toList :=
  ⟨genNextUniqueFileName_no_dash "foo.txt".toList (by decide),
    genNextUniqueFileName_no_dash "foo".toList (by decide)⟩

/-- The increment chain as far as it goes: `k` applications, `1 ≤ k ≤ 2 ^ 53`,
take `b.x` to `b-k.x`. -/
theorem iterate_chain (b x : JSString) (hb : '-' ∉ b) (hx : '.' ∉ x) :
    ∀ k, 1 ≤ k → k ≤ 2 ^ 53 →
      genNextUniqueFileName^[k] (b ++ '.' :: x) = b ++ '-' :: decimal k ++ '.' :: x := by
  intro k
  induction k with
  | zero => intro h; omega
  | succ k ih =>
    intro _ hk
    rw [Function.iterate_succ_apply']
    by_cases h0 : k = 0
    · subst h0
      rw [Function.iterate_zero, id_eq, gen_of_dot b x hx, stemSuccessor_no_dash _ _ hb]
      have h1 : decimal (0 + 1) = ['1'] := by decide
      rw [h1]
      simp
    · rw [ih (by omega) (by omega)]
      have : b ++ '-' :: decimal k ++ '.' :: x = (b ++ '-' :: decimal k) ++ '.' :: x := by
        simp
      rw [this, gen_of_dot _ x hx, stemSuccessor_decimal b _ k (by omega)]

/-- C6, as stated, fails at `k = 2 ^ 53 + 1`: the chain from `a.b` has stopped
at `a-9007199254740992.b`. -/
theorem genNextUniqueFileName_chain_fails :
    genNextUniqueFileName^[9007199254740993] ("a".toList ++ ".".toList ++ "b".toList)
      ≠ "a".toList ++ "-".toList ++ decimal 9007199254740993 ++ ".".toList ++ "b".toList := by
  have h : genNextUniqueFileName^[9007199254740992] ("a".toList ++ ".".toList ++ "b".toList)
      = "a-9007199254740992.b".toList :=
    iterate_chain "a".toList "b".toList (by decide) (by decide) 9007199254740992
      (by decide) (by decide)
  have step : genNextUniqueFileName "a-9007199254740992.b".toList
      = "a-9007199254740992.b".toList := by decide
  intro hc
  rw [show (9007199254740993 : Nat) = 9007199254740992 + 1 from rfl,
    Function.iterate_succ_apply', h, step] at hc
  exact absurd hc (by decide)

/-- C6 (amended): for a base `b` without `-` and `.`, an extension `x` without
`.`, and `1 ≤ k ≤ 2 ^ 53`, applying `genNextUniqueFileName` `k` times to `b.x`
gives `b-k.x`, `k` in canonical decimal. -/
theorem genNextUniqueFileName_chain (b x : JSString) (k : Nat)
    (hb : '-' ∉ b) (_hb2 : '.' ∉ b) (hx : '.' ∉ x) (h1 : 1 ≤ k) (h2 : k ≤ 2 ^ 53) :
    genNextUniqueFileName^[k] (b ++ ".".toList ++ x)
      = b ++ "-".toList ++ decimal k ++ ".".toList ++ x := by
  have h := iterate_chain b x hb hx k h1 h2
  simpa using h

theorem genNextUniqueFileName_chain_witness :
    genNextUniqueFileName^[3] "foo.txt".toList = "foo-3.txt".toList :=
  genNextUniqueFileName_chain "foo".toList "txt".toList 3 (by decide) (by decide)
    (by decide) (by decide) (by decide)

/-- C7: the result contains a `.` if and only if the name does, and then what
follows the last `.` of the result is, unchanged, what follows the last `.` of
the name; `foo.tar.gz` becomes `foo.tar-1.gz`. -/
theorem genNextUniqueFileName_extension (s : JSString) :
    ('.' ∈ genNextUniqueFileName s ↔ '.' ∈ s)
      ∧ ('.' ∈ s → afterLast '.' (genNextUniqueFileName s) = afterLast '.' s)
      ∧ genNextUniqueFileName "foo.tar.gz".toList = "foo.tar-1.gz".toList := by
  refine ⟨?_, ?_, by decide⟩
  · by_cases h : '.' ∈ s
    · obtain ⟨a, x, rfl, hx⟩ := exists_last_sep '.' s h
      obtain ⟨M, hM, -⟩ := stemSuccessor_suffix a ('.' :: x)
      rw [gen_of_dot a x hx, hM]
      simp
    · obtain ⟨M, hM, hM2⟩ := stemSuccessor_suffix s []
      rw [gen_of_no_dot s h, hM, List.append_nil]
      exact ⟨fun e => absurd e (hM2 h), fun e => absurd e h⟩
  · intro h
    obtain ⟨a, x, rfl, hx⟩ := exists_last_sep '.' s h
    obtain ⟨M, hM, -⟩ := stemSuccessor_suffix a ('.' :: x)
    rw [gen_of_dot a x hx, hM, afterLast_append '.' M x hx, afterLast_append '.' a x hx]

theorem genNextUniqueFileName_extension_witness :
    '.' ∈ "foo-1.TXT".toList
      ∧ afterLast '.' (genNextUniqueFileName "foo-1.TXT".toList) = "TXT".toList :=
  ⟨by decide, (genNextUniqueFileName_extension "foo-1.TXT".toList).2.1 (by decide)⟩

/-! ## The directory tree -/

theorem fseDirEntries_dir (es : List FsEntry) (h : DirHandle) (name path : JSString)
    (size : Nat) (m : Option MetaObject) :
    fseDirEntries (.dir es h name path size m) = some es := rfl

theorem fseFile_file (f : JSFile) (h : DirHandle) (name path : JSString)
    (size : Nat) (m : Option MetaObject) :
    fseFile (.file f h name path size m) = some f := rfl

theorem readDirRecur_eq (d : DirHandle) (skip : Handle → JSString → Bool) (p : JSString) :
    readDirRecur d skip p = .dir (readDirLoop d skip p d.values) d d.name [] 0 none := by
  cases d with
  | mk name values => simp [readDirRecur, DirHandle.values, DirHandle.name]

theorem readDirLoop_nil (d : DirHandle) (skip : Handle → JSString → Bool) (p : JSString) :
    readDirLoop d skip p [] = [] := by
  simp [readDirLoop]

theorem readDirLoop_cons (d : DirHandle) (skip : Handle → JSString → Bool) (p : JSString)
    (entry : Handle) (rest : List Handle) :
    readDirLoop d skip p (entry :: rest) =
      if skip entry p then readDirLoop d skip p rest
      else entryFor d skip p entry :: readDirLoop d skip p rest := by
  cases entry with
  | file f =>
    simp only [readDirLoop, entryFor, joinPath, Handle.name]
  | directory sub =>
    simp only [readDirLoop, entryFor, joinPath, Handle.name]

/-- The loop with `continue` is a filter followed by a map. -/
theorem readDirLoop_eq_map_filter (d : DirHandle) (skip : Handle → JSString → Bool)
    (p : JSString) (vs : List Handle) :
    readDirLoop d skip p vs
      = (vs.filter (fun c => !skip c p)).map (entryFor d skip p) := by
  induction vs with
  | nil => simp [readDirLoop_nil]
  | cons entry rest ih =>
    rw [readDirLoop_cons]
    by_cases h : skip entry p = true
    · simp [h, ih]
    · simp [h, ih]

theorem pathsJoined_entryFor_file (d : DirHandle) (skip : Handle → JSString → Bool)
    (q : JSString) (f : JSFile) : pathsJoined q (entryFor d skip q (.file f)) = true := by
  simp [entryFor, pathsJoined]

theorem pathsJoined_entryFor_directory (d sub : DirHandle) (skip : Handle → JSString → Bool)
    (q : JSString)
    (h : allPathsJoined (joinPath q sub.name)
      (readDirLoop sub skip (joinPath q sub.name) sub.values) = true) :
    pathsJoined q (entryFor d skip q (.directory sub)) = true := by
  simp [entryFor, readDirRecur_eq, setPath, pathsJoined, h]

mutual
/-- Below the root every path is the name joined to the path of the parent,
the children of the root being joined to the prefix of the call. -/
theorem allPathsJoined_values (skip : Handle → JSString → Bool) :
    ∀ (d : DirHandle) (q : JSString),
      allPathsJoined q (readDirLoop d skip q d.values) = true
  | .mk name values, q => allPathsJoined_loop skip (.mk name values) q values
theorem allPathsJoined_loop (skip : Handle → JSString → Bool) (d : DirHandle) (q : JSString) :
    ∀ vs : List Handle, allPathsJoined q (readDirLoop d skip q vs) = true
  | [] => by rw [readDirLoop_nil]; rfl
  | .file f :: rest => by
    rw [readDirLoop_cons]
    split_ifs
    · exact allPathsJoined_loop skip d q rest
    · simp only [allPathsJoined, Bool.and_eq_true]
      exact ⟨pathsJoined_entryFor_file d skip q f, allPathsJoined_loop skip d q rest⟩
  | .directory sub :: rest => by
    rw [readDirLoop_cons]
    split_ifs
    · exact allPathsJoined_loop skip d q rest
    · simp only [allPathsJoined, Bool.and_eq_true]
      exact ⟨pathsJoined_entryFor_directory d sub skip q
        (allPathsJoined_values skip sub (joinPath q sub.name)),
        allPathsJoined_loop skip d q rest⟩
end

theorem mem_entriesBelow (es : List FsEntry) (e : FsEntry) :
    e ∈ entriesBelow es ↔ ∃ x ∈ es, e ∈ entriesOf x := by
  induction es with
  | nil => simp [entriesBelow]
  | cons x xs ih => simp [entriesBelow, ih]

/-! ## Claims about `readDirRecur` -/

/-- C8, as stated, fails for the default prefix: the directory `root` with the
single file `a`, read with the prefix left out, gives a root entry with the
empty path and a child of path `root/a`, which is not the child's name. -/
theorem readDirRecur_paths_fail :
    fsePath (readDirRecurDefault (.mk "root".toList [.file ⟨"a".toList, 1⟩]) none none) = []
    ∧ (fseDirEntries (readDirRecurDefault (.mk "root".toList [.file ⟨"a".toList, 1⟩])
          none none)).map (fun es => es.map fsePath) = some ["root/a".toList]
    ∧ (fseDirEntries (readDirRecurDefault (.mk "root".toList [.file ⟨"a".toList, 1⟩])
          none none)).map
        (allPathsJoined (fsePath (readDirRecurDefault
          (.mk "root".toList [.file ⟨"a".toList, 1⟩]) none none))) = some false := by
  decide

/-- C8 (amended): in the tree that `readDirRecur d skip p` returns, every
child of the root has as path its name joined to the prefix `p` of the call
(the name itself when `p` is empty, else `p`, `/`, the name), and every entry
further down has as path its name joined in the same way to the path field of
its parent entry; with the prefix left out, `p` is the name of `d`. -/
theorem readDirRecur_paths (d : DirHandle) (skip : Handle → JSString → Bool) (p : JSString) :
    (fseDirEntries (readDirRecur d skip p)).map (allPathsJoined p) = some true
      ∧ (fseDirEntries (readDirRecurDefault d (some skip) none)).map
          (allPathsJoined d.name) = some true := by
  have key : ∀ q, (fseDirEntries (readDirRecur d skip q)).map (allPathsJoined q)
      = some true := by
    intro q
    rw [readDirRecur_eq]
    rw [fseDirEntries_dir, Option.map_some']
    rw [allPathsJoined_values skip d q]
  exact ⟨key p, key d.name⟩

/-- C9, as stated, fails: read with the prefix `x`, the directory `root` is
returned with the empty path, not with the path `x`. -/
theorem readDirRecur_root_path_fails :
    fsePath (readDirRecur (.mk "root".toList []) dontSkip "x".toList) ≠ "x".toList := by
  decide

/-- C9 (amended): the entry that `readDirRecur d skip p` returns is a
directory entry whose name is the name of `d` and whose path is the empty
string, whatever the prefix `p`. -/
theorem readDirRecur_root (d : DirHandle) (skip : Handle → JSString → Bool) (p : JSString) :
    fseIsDirectory (readDirRecur d skip p) = true
      ∧ fseName (readDirRecur d skip p) = d.name
      ∧ fsePath (readDirRecur d skip p) = [] := by
  rw [readDirRecur_eq]
  exact ⟨rfl, rfl, rfl⟩

/-- C10: the children of `readDirRecur d skip p` are, in the order of the
enumeration, the entries built for the enumerated handles `c` with
`skip c p = false`: a file entry for a file, and for a subdirectory the result
of `readDirRecur` on it with its path as prefix (and as path). Hence every
entry below the root, at any depth, lies in the subtree built for an
enumerated handle that is not skipped; in the sample tree the skipped
directory `tmp` leaves neither itself nor its file `x` in the result. -/
theorem readDirRecur_children (d : DirHandle) (skip : Handle → JSString → Bool)
    (p : JSString) :
    fseDirEntries (readDirRecur d skip p)
        = some ((d.values.filter (fun c => !skip c p)).map (fun c =>
            match c with
            | .file file => .file file d file.name (joinPath p file.name) file.size none
            | .directory sub =>
              setPath (readDirRecur sub skip (joinPath p sub.name)) (joinPath p sub.name)))
    ∧ (∀ es, fseDirEntries (readDirRecur d skip p) = some es →
        ∀ e ∈ entriesBelow es, ∃ c ∈ d.values, skip c p = false ∧
          e ∈ entriesOf (entryFor d skip p c))
    ∧ (entriesBelow ((fseDirEntries (readDirRecur
          (.mk "r".toList [.file ⟨"a".toList, 1⟩,
            .directory (.mk "tmp".toList [.file ⟨"x".toList, 2⟩]),
            .directory (.mk "src".toList [.file ⟨"y".toList, 3⟩])])
          (fun c _ => decide (c.name = "tmp".toList)) [])).getD [])).map fsePath
        = ["a".toList, "src".toList, "src/y".toList] := by
  have hmap : (fun c => entryFor d skip p c) = (fun c =>
      match c with
      | .file file => FsEntry.file file d file.name (joinPath p file.name) file.size none
      | .directory sub =>
        setPath (readDirRecur sub skip (joinPath p sub.name)) (joinPath p sub.name)) := by
    funext c
    cases c <;> rfl
  have hchildren : fseDirEntries (readDirRecur d skip p)
      = some ((d.values.filter (fun c => !skip c p)).map (entryFor d skip p)) := by
    rw [readDirRecur_eq, fseDirEntries_dir, readDirLoop_eq_map_filter]
  refine ⟨?_, ?_, by decide⟩
  · rw [hchildren]
    exact congrArg (fun f => some ((d.values.filter (fun c => !skip c p)).map f)) hmap
  · intro es hes e he
    rw [hchildren] at hes
    have hes2 := Option.some.inj hes
    subst hes2
    obtain ⟨x, hx, hex⟩ := (mem_entriesBelow _ e).mp he
    obtain ⟨c, hc, rfl⟩ := List.mem_map.mp hx
    have hc2 := List.mem_filter.mp hc
    refine ⟨c, hc2.1, ?_, hex⟩
    simpa using hc2.2

theorem readDirRecur_children_witness :
    ∃ c ∈ [Handle.file ⟨"a".toList, 1⟩, Handle.directory (.mk "tmp".toList [])],
      (decide (c.name = "tmp".toList)) = false ∧
        FsEntry.file ⟨"a".toList, 1⟩
            (.mk "r".toList [.file ⟨"a".toList, 1⟩, .directory (.mk "tmp".toList [])])
            "a".toList "a".toList 1 none
          ∈ entriesOf (entryFor
            (.mk "r".toList [.file ⟨"a".toList, 1⟩, .directory (.mk "tmp".toList [])])
            (fun c _ => decide (c.name = "tmp".toList)) [] c) :=
  (readDirRecur_children
      (.mk "r".toList [.file ⟨"a".toList, 1⟩, .directory (.mk "tmp".toList [])])
      (fun c _ => decide (c.name = "tmp".toList)) []).2.1
    [.file ⟨"a".toList, 1⟩
      (.mk "r".toList [.file ⟨"a".toList, 1⟩, .directory (.mk "tmp".toList [])])
      "a".toList "a".toList 1 none]
    rfl _ (List.mem_cons_self _ _)

/-! ## Line counting over concatenations -/

/-- The value of `lineCount`: line feeds, plus one for an unterminated last
line. -/
theorem lineCount_eq (b : List UInt8) :
    lineCount b = b.count 10 + (if b ≠ [] ∧ b.getLast? ≠ some 10 then 1 else 0) := by
  unfold lineCount
  by_cases hb : b.length = 0
  · have : b = [] := List.length_eq_zero.mp hb
    subst this
    simp
  · rw [if_neg hb, lineCount_loop]

theorem lineCount_nil : lineCount [] = 0 := by decide

theorem eq_nil_or_snoc (b : List UInt8) : b = [] ∨ ∃ l x, b = l ++ [x] := by
  rcases List.eq_nil_or_concat b with h | ⟨l, x, h⟩
  · exact Or.inl h
  · exact Or.inr ⟨l, x, by rw [h, List.concat_eq_append]⟩

theorem count_snoc_lf (l : List UInt8) : (l ++ [10]).count 10 = l.count 10 + 1 := by
  simp [List.count_append]

theorem count_snoc_other (l : List UInt8) (x : UInt8) (hx : x ≠ 10) :
    (l ++ [x]).count 10 = l.count 10 := by
  have hx2 : ¬ (x == 10) = true := by simpa using hx
  simp [List.count_append, List.count_singleton, hx2]

/-- A sequence that ends with a line feed has as many lines as line feeds. -/
theorem lineCount_concat_lf (l : List UInt8) : lineCount (l ++ [10]) = l.count 10 + 1 := by
  rw [lineCount_eq, count_snoc_lf]
  simp

/-- A sequence that ends with another byte has one line more than line
feeds. -/
theorem lineCount_concat_other (l : List UInt8) (x : UInt8) (hx : x ≠ 10) :
    lineCount (l ++ [x]) = l.count 10 + 1 := by
  rw [lineCount_eq, count_snoc_other l x hx]
  simp [hx]

theorem unixToWindows_append (a b : List UInt8) :
    unixToWindows (a ++ b) = unixToWindows a ++ unixToWindows b := by
  induction a with
  | nil => rfl
  | cons x r ih =>
    by_cases hx : x = 10
    · simp [unixToWindows, hx, ih]
    · simp [unixToWindows, hx, ih]

theorem count_unixToWindows (b : List UInt8) : (unixToWindows b).count 10 = b.count 10 := by
  induction b with
  | nil => rfl
  | cons x r ih =>
    by_cases hx : x = 10
    · subst hx
      simp [unixToWindows, ih, List.count_cons]
    · have hx2 : ¬ (x == 10) = true := by simpa using hx
      simp [unixToWindows, hx, ih, List.count_cons, hx2]

/-! ## Further claims about `lineCount` -/

/-- C12: for a non-empty byte sequence `b` whose last byte is not `0x0A`,
appending one `0x0A` leaves the line count unchanged. -/
theorem lineCount_terminate (b : List UInt8) (hne : b ≠ [])
    (hlast : b.getLast? ≠ some 0x0A) : lineCount (b ++ [0x0A]) = lineCount b := by
  rcases eq_nil_or_snoc b with h | ⟨l, x, rfl⟩
  · exact absurd h hne
  · have hx : x ≠ 10 := by
      intro e
      apply hlast
      simp [e]
    rw [lineCount_concat_lf, lineCount_concat_other l x hx, count_snoc_other l x hx]

theorem lineCount_terminate_witness :
    lineCount ([0x41, 0x0A, 0x42] ++ [0x0A]) = lineCount [0x41, 0x0A, 0x42] :=
  lineCount_terminate [0x41, 0x0A, 0x42] (by decide) (by decide)

/-- C13: replacing every `0x0A` of a byte sequence by the pair `0x0D 0x0A`
leaves the line count unchanged. -/
theorem lineCount_unixToWindows (b : List UInt8) :
    lineCount (unixToWindows b) = lineCount b := by
  rcases eq_nil_or_snoc b with h | ⟨l, x, rfl⟩
  · subst h
    rfl
  · by_cases hx : x = 10
    · subst hx
      have h1 : unixToWindows (l ++ [10]) = (unixToWindows l ++ [13]) ++ [10] := by
        rw [unixToWindows_append]
        simp [unixToWindows]
      rw [h1, lineCount_concat_lf, lineCount_concat_lf, count_snoc_other _ 13 (by decide),
        count_unixToWindows]
    · have h1 : unixToWindows (l ++ [x]) = unixToWindows l ++ [x] := by
        rw [unixToWindows_append]
        simp [unixToWindows, hx]
      rw [h1, lineCount_concat_other _ x hx, lineCount_concat_other _ x hx,
        count_unixToWindows]

/-- C14: a non-empty byte sequence without a `0x0A` byte has one line, however
many `0x0D` bytes it contains. -/
theorem lineCount_no_lf (b : List UInt8) (hne : b ≠ []) (hlf : (0x0A : UInt8) ∉ b) :
    lineCount b = 1 := by
  rcases eq_nil_or_snoc b with h | ⟨l, x, rfl⟩
  · exact absurd h hne
  · have hx : x ≠ 10 := by
      intro e
      apply hlf
      simp [e]
    have hl : (10 : UInt8) ∉ l := fun e => hlf (by simp [e])
    rw [lineCount_concat_other l x hx, List.count_eq_zero_of_not_mem hl]

theorem lineCount_no_lf_witness : lineCount [0x41, 0x0D, 0x42, 0x0D] = 1 :=
  lineCount_no_lf [0x41, 0x0D, 0x42, 0x0D] (by decide) (by decide)

/-- C20: when `a` is empty or ends with `0x0A`, the lines of `a ++ b` are the
lines of `a` plus the lines of `b`; when `a` is non-empty and does not end with
`0x0A` and `b` is non-empty, they are one less. Hence the count is
sub-additive, and for non-empty `a` and `b` it is additive exactly when `a`
ends with `0x0A`. -/
theorem lineCount_append (a b : List UInt8) :
    ((a = [] ∨ a.getLast? = some 0x0A) → lineCount (a ++ b) = lineCount a + lineCount b)
    ∧ (a ≠ [] → a.getLast? ≠ some 0x0A → b ≠ [] →
        lineCount (a ++ b) = lineCount a + lineCount b - 1)
    ∧ lineCount (a ++ b) ≤ lineCount a + lineCount b
    ∧ (a ≠ [] → b ≠ [] →
        (lineCount (a ++ b) = lineCount a + lineCount b ↔ a.getLast? = some 0x0A)) := by
  have hexact : (a = [] ∨ a.getLast? = some 10) →
      lineCount (a ++ b) = lineCount a + lineCount b := by
    rintro (h | h)
    · subst h
      simp [lineCount_nil]
    · rcases eq_nil_or_snoc a with ha | ⟨l, x, rfl⟩
      · subst ha
        simp [lineCount_nil]
      · have hx : x = 10 := by simpa using h
        subst hx
        rcases eq_nil_or_snoc b with hb | ⟨m, y, rfl⟩
        · subst hb
          simp [lineCount_nil]
        · have e : l ++ [10] ++ (m ++ [y]) = (l ++ [10] ++ m) ++ [y] := by simp
          rw [e, lineCount_concat_lf l]
          by_cases hy : y = 10
          · subst hy
            rw [lineCount_concat_lf, lineCount_concat_lf, List.count_append, count_snoc_lf]
            omega
          · rw [lineCount_concat_other _ y hy, lineCount_concat_other _ y hy,
              List.count_append, count_snoc_lf]
            omega
  have hless : a ≠ [] → a.getLast? ≠ some 10 → b ≠ [] →
      lineCount (a ++ b) + 1 = lineCount a + lineCount b := by
    intro ha hl hb
    rcases eq_nil_or_snoc a with h | ⟨l, x, rfl⟩
    · exact absurd h ha
    · have hx : x ≠ 10 := by
        intro e
        apply hl
        simp [e]
      rcases eq_nil_or_snoc b with h | ⟨m, y, rfl⟩
      · exact absurd h hb
      · have e : l ++ [x] ++ (m ++ [y]) = (l ++ [x] ++ m) ++ [y] := by simp
        rw [e, lineCount_concat_other l x hx]
        by_cases hy : y = 10
        · subst hy
          rw [lineCount_concat_lf, lineCount_concat_lf, List.count_append,
            count_snoc_other l x hx]
          omega
        · rw [lineCount_concat_other _ y hy, lineCount_concat_other _ y hy,
            List.count_append, count_snoc_other l x hx]
          omega
  refine ⟨hexact, ?_, ?_, ?_⟩
  · intro ha hl hb
    have := hless ha hl hb
    omega
  · by_cases h : a = [] ∨ a.getLast? = some 10
    · exact le_of_eq (hexact h)
    · by_cases hb : b = []
      · subst hb
        simp [lineCount_nil]
      · have ha : a ≠ [] := fun e => h (Or.inl e)
        have hl : a.getLast? ≠ some 10 := fun e => h (Or.inr e)
        have := hless ha hl hb
        omega
  · intro ha hb
    constructor
    · intro heq
      by_contra hl
      have := hless ha hl hb
      omega
    · intro hl
      exact hexact (Or.inr hl)

theorem lineCount_append_witness :
    lineCount ([0x41, 0x0A] ++ [0x42]) = lineCount [0x41, 0x0A] + lineCount [0x42]
      ∧ lineCount ([0x41] ++ [0x42]) = lineCount [0x41] + lineCount [0x42] - 1 :=
  ⟨(lineCount_append [0x41, 0x0A] [0x42]).1 (Or.inr (by decide)),
    (lineCount_append [0x41] [0x42]).2.1 (by decide) (by decide) (by decide)⟩

/-! ## The entry model -/

theorem ownLookup_ownStore_same (k : JSString) (v : JSValue) (l : List (JSString × JSValue)) :
    ownLookup k (ownStore k v l) = some v := by
  induction l with
  | nil => simp [ownStore, ownLookup]
  | cons p rest ih =>
    obtain ⟨k0, v0⟩ := p
    by_cases h : k0 = k
    · simp [ownStore, ownLookup, h]
    · simp [ownStore, ownLookup, h, ih]

theorem ownLookup_ownStore_other (k k2 : JSString) (v : JSValue)
    (l : List (JSString × JSValue)) (h : k ≠ k2) :
    ownLookup k2 (ownStore k v l) = ownLookup k2 l := by
  induction l with
  | nil => simp [ownStore, ownLookup, h]
  | cons p rest ih =>
    obtain ⟨k0, v0⟩ := p
    by_cases h0 : k0 = k
    · subst h0
      simp [ownStore, ownLookup, h]
    · by_cases h1 : k0 = k2
      · subst h1
        simp [ownStore, ownLookup, h0]
      · simp [ownStore, ownLookup, h0, h1, ih]

/-- An assignment under a name other than `__proto__` creates or overwrites an
own property. -/
theorem setProperty_of_ne (o : MetaObject) (k : JSString) (v : JSValue)
    (hk : k ≠ "__proto__".toList) :
    setProperty o k v = { o with own := ownStore k v o.own } := by
  unfold setProperty
  cases ownLookup k o.own with
  | some w => rfl
  | none =>
    have hd : decide (k = "__proto__".toList) = false := decide_eq_false hk
    have : (o.hasProto && decide (k = "__proto__".toList)) = false := by
      rw [hd, Bool.and_false]
    simp only [this]
    rfl

theorem getProperty_setProperty_same (o : MetaObject) (k : JSString) (v : JSValue)
    (hk : k ≠ "__proto__".toList) : getProperty (setProperty o k v) k = .value v := by
  rw [setProperty_of_ne o k v hk]
  unfold getProperty
  simp only [ownLookup_ownStore_same]

theorem getProperty_setProperty_other (o : MetaObject) (k k2 : JSString) (v : JSValue)
    (hk : k ≠ "__proto__".toList) (h : k ≠ k2) :
    getProperty (setProperty o k v) k2 = getProperty o k2 := by
  rw [setProperty_of_ne o k v hk]
  unfold getProperty
  simp only [ownLookup_ownStore_other k k2 v o.own h]

theorem fseMeta_fseSetMeta (e : FsEntry) (k : JSString) (v : JSValue) :
    fseMeta (fseSetMeta e k v) = some (setProperty ((fseMeta e).getD emptyObject) k v) := by
  cases e <;> rfl

theorem fseGetMeta_eq (e : FsEntry) (k : JSString) :
    fseGetMeta e k =
      match fseMeta e with
      | some o => getProperty o k
      | none => .value .undefined := rfl

/-- Reading a name that `Object.prototype` does not define from the object `{}`
with one property of another name gives `undefined`. -/
theorem getProperty_fresh_other (k k2 : JSString) (v : JSValue)
    (hk : k ≠ "__proto__".toList) (h : k ≠ k2) (h2 : k2 ∉ objectPrototypeKeys) :
    getProperty (setProperty emptyObject k v) k2 = .value .undefined := by
  rw [getProperty_setProperty_other _ k k2 v hk h]
  unfold getProperty emptyObject
  simp [ownLookup, h2]

theorem entriesOf_setPath_dir (es : List FsEntry) (h : DirHandle) (name p q : JSString)
    (size : Nat) (m : Option MetaObject) :
    entriesOf (setPath (.dir es h name p size m) q)
      = .dir es h name q size m :: entriesBelow es := by
  simp [setPath, entriesOf]

theorem entriesBelow_cons (e : FsEntry) (es : List FsEntry) :
    entriesBelow (e :: es) = entriesOf e ++ entriesBelow es := by
  simp [entriesBelow]

mutual
/-- No entry built by the loop, at any depth, has a metadata object. -/
theorem fseMeta_none_values (skip : Handle → JSString → Bool) :
    ∀ (d : DirHandle) (q : JSString),
      ∀ e ∈ entriesBelow (readDirLoop d skip q d.values), fseMeta e = none
  | .mk name values, q => fseMeta_none_loop skip (.mk name values) q values
theorem fseMeta_none_loop (skip : Handle → JSString → Bool) (d : DirHandle) (q : JSString) :
    ∀ vs : List Handle, ∀ e ∈ entriesBelow (readDirLoop d skip q vs), fseMeta e = none
  | [] => by
    intro e he
    rw [readDirLoop_nil] at he
    simp [entriesBelow] at he
  | .file f :: rest => by
    intro e he
    rw [readDirLoop_cons] at he
    split_ifs at he
    · exact fseMeta_none_loop skip d q rest e he
    · rw [entriesBelow_cons] at he
      rcases List.mem_append.mp he with h | h
      · have : e = entryFor d skip q (.file f) := by
          simpa [entryFor, entriesOf] using h
        rw [this]
        rfl
      · exact fseMeta_none_loop skip d q rest e h
  | .directory sub :: rest => by
    intro e he
    rw [readDirLoop_cons] at he
    split_ifs at he
    · exact fseMeta_none_loop skip d q rest e he
    · rw [entriesBelow_cons] at he
      rcases List.mem_append.mp he with h | h
      · have hsub : entryFor d skip q (.directory sub)
            = setPath (.dir (readDirLoop sub skip (joinPath q sub.name) sub.values)
                sub sub.name [] 0 none) (joinPath q sub.name) := by
          simp only [entryFor, readDirRecur_eq]
        rw [hsub, entriesOf_setPath_dir] at h
        rcases List.mem_cons.mp h with h1 | h1
        · rw [h1]
          rfl
        · exact fseMeta_none_values skip sub (joinPath q sub.name) e h1
      · exact fseMeta_none_loop skip d q rest e h
end

/-- With `dontSkip` the loop builds an entry for every enumerated handle. -/
theorem readDirLoop_dontSkip (d : DirHandle) (p : JSString) (vs : List Handle) :
    readDirLoop d dontSkip p vs = vs.map (entryFor d dontSkip p) := by
  rw [readDirLoop_eq_map_filter]
  congr 1
  simp [dontSkip]

theorem fseName_entryFor (d : DirHandle) (skip : Handle → JSString → Bool) (p : JSString)
    (c : Handle) : fseName (entryFor d skip p c) = c.name := by
  cases c with
  | file f => rfl
  | directory sub => simp [entryFor, readDirRecur_eq, setPath, fseName, Handle.name]

theorem fseIsDirectory_entryFor (d : DirHandle) (skip : Handle → JSString → Bool)
    (p : JSString) (c : Handle) :
    fseIsDirectory (entryFor d skip p c) = c.isDirectory := by
  cases c with
  | file f => rfl
  | directory sub =>
    simp [entryFor, readDirRecur_eq, setPath, fseIsDirectory, Handle.isDirectory]

theorem length_filter_kind (vs : List Handle) :
    (vs.filter (fun c => !c.isDirectory)).length + (vs.filter Handle.isDirectory).length
      = vs.length := by
  induction vs with
  | nil => rfl
  | cons c rest ih =>
    cases hc : c.isDirectory <;> simp [List.filter, hc] <;> omega

/-! ## Claims about the entry model and `getFileExt` -/

/-- C11: with the default skip predicate, the entry that `readDirRecur`
returns for a directory that enumerates `N` files and `M` subdirectories has
exactly `N + M` children, and for every index `i` the `i`-th child has the name
and the variant (file or directory) of the `i`-th enumerated handle. -/
theorem readDirRecur_dontSkip_children (d : DirHandle) (dir : Option JSString) :
    ∃ es, fseDirEntries (readDirRecurDefault d none dir) = some es
      ∧ es.length = (d.values.filter (fun c => !c.isDirectory)).length
          + (d.values.filter Handle.isDirectory).length
      ∧ ∀ i : Nat, es[i]?.map (fun e => (fseName e, fseIsDirectory e))
          = d.values[i]?.map (fun c => (c.name, c.isDirectory)) := by
  refine ⟨d.values.map (entryFor d dontSkip (dir.getD d.name)), ?_, ?_, ?_⟩
  · unfold readDirRecurDefault
    rw [readDirRecur_eq, fseDirEntries_dir]
    simp only [Option.getD_none]
    rw [readDirLoop_dontSkip]
  · rw [List.length_map, length_filter_kind]
  · intro i
    rw [List.getElem?_map, Option.map_map]
    congr 1
    funext c
    simp only [Function.comp, fseName_entryFor, fseIsDirectory_entryFor]

/-- C15: for every entry exactly one of `fseDirEntries` and `fseFile`
succeeds: on a directory entry `fseDirEntries` returns the child sequence and
`fseFile` fails, on a file entry `fseFile` returns the file and
`fseDirEntries` fails; `fseIsDirectory` tells which. -/
theorem fseDirEntries_xor_fseFile :
    (∀ e : FsEntry, (fseDirEntries e).isSome = !(fseFile e).isSome)
    ∧ (∀ e : FsEntry, (fseDirEntries e).isSome = fseIsDirectory e)
    ∧ (∀ es h name path size m,
        fseIsDirectory (.dir es h name path size m) = true
          ∧ fseDirEntries (.dir es h name path size m) = some es
          ∧ fseFile (.dir es h name path size m) = none)
    ∧ (∀ f h name path size m,
        fseIsDirectory (.file f h name path size m) = false
          ∧ fseFile (.file f h name path size m) = some f
          ∧ fseDirEntries (.file f h name path size m) = none) := by
  refine ⟨?_, ?_, ?_, ?_⟩
  · intro e
    cases e <;> rfl
  · intro e
    cases e <;> rfl
  · intro es h name path size m
    exact ⟨rfl, rfl, rfl⟩
  · intro f h name path size m
    exact ⟨rfl, rfl, rfl⟩

/-- C16, as stated, fails for the key `__proto__`: on a fresh entry the
assignment `meta["__proto__"] = 5` reaches the setter of `Object.prototype`,
which ignores the number, and reading the key back gives `Object.prototype`,
not 5. -/
theorem fseGetMeta_fseSetMeta_proto_fails :
    fseGetMeta (fseSetMeta (.file ⟨"a".toList, 1⟩ (.mk "r".toList []) "a".toList "a".toList 1
        none) "__proto__".toList (.number 5)) "__proto__".toList
      = .inherited "__proto__".toList
    ∧ fseGetMeta (fseSetMeta (.file ⟨"a".toList, 1⟩ (.mk "r".toList []) "a".toList "a".toList 1
        none) "__proto__".toList (.number 5)) "__proto__".toList
      ≠ .value (.number 5) := by
  decide

/-- C16 (amended): for every entry (its metadata slot absent or allocated),
every key `k` other than `__proto__` and every value `v`, `fseGetMeta` returns
`v` under `k` after `fseSetMeta e k v`; a second write under `k` overrides the
first. -/
theorem fseGetMeta_fseSetMeta (e : FsEntry) (k : JSString) (v w : JSValue)
    (hk : k ≠ "__proto__".toList) :
    fseGetMeta (fseSetMeta e k v) k = .value v
      ∧ fseGetMeta (fseSetMeta (fseSetMeta e k v) k w) k = .value w := by
  have key : ∀ (e0 : FsEntry) (u : JSValue), fseGetMeta (fseSetMeta e0 k u) k = .value u := by
    intro e0 u
    rw [fseGetMeta_eq, fseMeta_fseSetMeta]
    exact getProperty_setProperty_same _ k u hk
  exact ⟨key e v, key _ w⟩

theorem fseGetMeta_fseSetMeta_witness :
    fseGetMeta (fseSetMeta (.dir [] (.mk "r".toList []) "r".toList [] 0 none)
        "lines".toList (.number 12)) "lines".toList = .value (.number 12)
      ∧ fseGetMeta (fseSetMeta (fseSetMeta (.dir [] (.mk "r".toList []) "r".toList [] 0 none)
        "lines".toList (.number 12)) "lines".toList (.string "x".toList)) "lines".toList
        = .value (.string "x".toList) :=
  fseGetMeta_fseSetMeta (.dir [] (.mk "r".toList []) "r".toList [] 0 none) "lines".toList
    (.number 12) (.string "x".toList) (by decide)

/-- C17, as stated, fails on an entry whose metadata slot is absent: before
`fseSetMeta e "a" 1` the key `toString` reads `undefined`, afterwards it reads
the built-in `toString` of `Object.prototype`, which the new object `{}`
inherits. -/
theorem fseSetMeta_frame_fails :
    fseGetMeta (.file ⟨"a".toList, 1⟩ (.mk "r".toList []) "a".toList "a".toList 1 none)
        "toString".toList = .value .undefined
    ∧ fseGetMeta (fseSetMeta (.file ⟨"a".toList, 1⟩ (.mk "r".toList []) "a".toList "a".toList 1
        none) "a".toList (.number 1)) "toString".toList = .inherited "toString".toList := by
  decide

/-- C17 (amended): `fseSetMeta e k v` leaves the variant, the name, the path,
the size, the directory handle and the file or child sequence of `e`
unchanged; and for a key `k` other than `__proto__` it leaves
`fseGetMeta e k2` unchanged for every other key `k2`, provided the metadata
slot of `e` was already allocated or `k2` is not the name of a property of
`Object.prototype`. -/
theorem fseSetMeta_frame (e : FsEntry) (k k2 : JSString) (v : JSValue) (hne : k ≠ k2) :
    fseIsDirectory (fseSetMeta e k v) = fseIsDirectory e
      ∧ fseName (fseSetMeta e k v) = fseName e
      ∧ fsePath (fseSetMeta e k v) = fsePath e
      ∧ fseSize (fseSetMeta e k v) = fseSize e
      ∧ fseDirHandle (fseSetMeta e k v) = fseDirHandle e
      ∧ fseFile (fseSetMeta e k v) = fseFile e
      ∧ fseDirEntries (fseSetMeta e k v) = fseDirEntries e
      ∧ (k ≠ "__proto__".toList → ((fseMeta e).isSome = true ∨ k2 ∉ objectPrototypeKeys) →
          fseGetMeta (fseSetMeta e k v) k2 = fseGetMeta e k2) := by
  refine ⟨?_, ?_, ?_, ?_, ?_, ?_, ?_, ?_⟩
  · cases e <;> rfl
  · cases e <;> rfl
  · cases e <;> rfl
  · cases e <;> rfl
  · cases e <;> rfl
  · cases e <;> rfl
  · cases e <;> rfl
  · intro hk hslot
    rw [fseGetMeta_eq, fseMeta_fseSetMeta, fseGetMeta_eq]
    cases hm : fseMeta e with
    | some o =>
      simp only [Option.getD_some]
      exact getProperty_setProperty_other o k k2 v hk hne
    | none =>
      rw [hm] at hslot
      rcases hslot with h | h
      · exact absurd h (by simp)
      · simp only [Option.getD_none]
        exact getProperty_fresh_other k k2 v hk hne h

theorem fseSetMeta_frame_witness :
    fseGetMeta (fseSetMeta (.file ⟨"a".toList, 1⟩ (.mk "r".toList []) "a".toList "a".toList 1
        (some ⟨[("lines".toList, .number 3)], true⟩)) "binary".toList (.bool false))
        "lines".toList
      = fseGetMeta (.file ⟨"a".toList, 1⟩ (.mk "r".toList []) "a".toList "a".toList 1
        (some ⟨[("lines".toList, .number 3)], true⟩)) "lines".toList :=
  (fseSetMeta_frame (.file ⟨"a".toList, 1⟩ (.mk "r".toList []) "a".toList "a".toList 1
      (some ⟨[("lines".toList, .number 3)], true⟩)) "binary".toList "lines".toList
      (.bool false) (by decide)).2.2.2.2.2.2.2 (by decide) (Or.inl rfl)

/-- C18: every entry of a tree returned by `readDirRecur`, the root and the
entries at any depth below it, has an absent metadata slot, and `fseGetMeta`
returns `undefined` on it for every key. -/
theorem fseGetMeta_fresh (d : DirHandle) (skip : Handle → JSString → Bool) (p : JSString)
    (e : FsEntry) (he : e ∈ entriesOf (readDirRecur d skip p)) (k : JSString) :
    fseMeta e = none ∧ fseGetMeta e k = .value .undefined := by
  have hnone : fseMeta e = none := by
    rw [readDirRecur_eq] at he
    simp only [entriesOf] at he
    rcases List.mem_cons.mp he with h | h
    · rw [h]
      rfl
    · exact fseMeta_none_values skip d p e h
  refine ⟨hnone, ?_⟩
  rw [fseGetMeta_eq, hnone]

theorem fseGetMeta_fresh_witness :
    fseMeta (.file ⟨"a".toList, 1⟩ (.mk "r".toList [.file ⟨"a".toList, 1⟩])
        "a".toList "r/a".toList 1 none) = none
      ∧ fseGetMeta (.file ⟨"a".toList, 1⟩ (.mk "r".toList [.file ⟨"a".toList, 1⟩])
        "a".toList "r/a".toList 1 none) "toString".toList = .value .undefined :=
  fseGetMeta_fresh (.mk "r".toList [.file ⟨"a".toList, 1⟩]) dontSkip "r".toList _
    (List.mem_cons_of_mem _ (List.mem_cons_self _ _)) "toString".toList

/-- C19: `getFileExt` returns the empty string for a name without `.`, and
otherwise `.` followed by the lower-cased substring after the last `.` of the
name; `foo.TXT` gives `.txt` (for a lower-casing that takes `TXT` to `txt`) and
`foo` gives the empty string. -/
theorem getFileExt_eq (toLowerCase : JSString → JSString) (s : JSString) :
    getFileExt toLowerCase s
        = (if '.' ∈ s then '.' :: toLowerCase (afterLast '.' s) else [])
      ∧ (toLowerCase "TXT".toList = "txt".toList →
          getFileExt toLowerCase "foo.TXT".toList = ".txt".toList)
      ∧ getFileExt toLowerCase "foo".toList = [] := by
  have key : ∀ t : JSString, getFileExt toLowerCase t
      = (if '.' ∈ t then '.' :: toLowerCase (afterLast '.' t) else []) := by
    intro t
    by_cases h : '.' ∈ t
    · obtain ⟨a, x, rfl, hx⟩ := exists_last_sep '.' t h
      have hlen := length_split_pos '.' a
      have h1 : (split '.' a ++ [x]).length > 1 := by
        rw [List.length_append, List.length_singleton]; omega
      have h2 : (split '.' a ++ [x]).length - 1 = (split '.' a).length := by simp
      rw [if_pos h, afterLast_append '.' a x hx]
      simp only [getFileExt, split_append_sep '.' a x hx, h1, if_true, h2,
        getD_append_length]
    · rw [if_neg h]
      simp [getFileExt, split_of_not_mem '.' t h]
  refine ⟨key s, ?_, ?_⟩
  · intro h
    rw [key, if_pos (by decide)]
    have : afterLast '.' "foo.TXT".toList = "TXT".toList := by decide
    rw [this, h]
    rfl
  · rw [key, if_neg (by decide)]

theorem getFileExt_eq_witness :
    getFileExt (List.map Char.toLower) "foo.TXT".toList = ".txt".toList :=
  (getFileExt_eq (List.map Char.toLower) "foo.TXT".toList).2.1 (by decide)

end FileUtil
